import Mathlib

/-!
Verification of the finix-PWA recurring-expense materializer and ledger logic.

The development shallowly embeds the JavaScript source:

* `src/main.js` (`FinanceApp`, the installments variant) — the controller
  operations `addTransaction`, `deleteTransaction`, `addRecurringExpense`,
  `deleteRecurringExpense`, `importData` and the materializer
  `applyAndSortRecurring`.
* `src/unnamed/part_001` (`App`, the endDate variant) — the materializer
  `App.logic.applyRecurringExpenses` and the running-balance computation of
  `App.ui.renderFlowView`.

JavaScript `Date` values are instants; the embedding represents an instant by
a normalized triple: `ym` (year*12 + 0-based month), `d` (day of month) and
`t` (minutes within the day).  `new Date(y, m, d, hh, mm)` with an
out-of-range day rolls into adjacent months exactly as JavaScript does;
`normYmD` implements that normalization including real month lengths and
leap years.  Instant comparison (`<=` on `Date`, `getTime()` equality,
`Math.min`) is comparison of the mixed-radix key `dkey`, which on normalized
triples is an order embedding of real timestamps.  JavaScript numbers that
are used as amounts are modelled by `ℚ` (`Option ℚ` at input boundaries,
`none` playing the role of `NaN`); `id` values produced by `Date.now()` are
modelled by a counter threaded through the state.
-/

/-- Leap-year test, as the Gregorian calendar used by JavaScript `Date`. -/
def isLeap (y : Int) : Bool :=
  (y % 4 == 0 && y % 100 != 0) || y % 400 == 0

/-- Number of days of the month encoded by `ym` = year*12 + month (0-based). -/
def daysInMonth (ym : Int) : Int :=
  let m := ym % 12
  if m = 1 then (if isLeap (ym / 12) then 29 else 28)
  else if m = 3 ∨ m = 5 ∨ m = 8 ∨ m = 10 then 30
  else 31

theorem daysInMonth_bounds (ym : Int) : 28 ≤ daysInMonth ym ∧ daysInMonth ym ≤ 31 := by
  unfold daysInMonth
  dsimp only
  split
  · split <;> omega
  · split <;> omega

/-- An instant, in the normalized representation produced by JavaScript
`Date` accessors: `ym` = `getFullYear() * 12 + getMonth()`, `d` = `getDate()`,
`t` = minutes within the day. -/
structure DateTime where
  ym : Int
  d : Int
  t : Int
deriving DecidableEq, Repr

/-- Mixed-radix key of an instant.  On normalized triples
(`1 ≤ d ≤ 31`, `0 ≤ t < 1440`) it is an order embedding of the real
timestamp, so `Date` comparison, `getTime()` equality and `Math.min`
are comparison of `dkey`. -/
def dkey (x : DateTime) : Int :=
  (x.ym * 32 + x.d) * 1440 + x.t

/-- A triple is well-formed when its day and time components are in the
ranges JavaScript `Date` accessors produce. -/
def WFdt (x : DateTime) : Prop :=
  1 ≤ x.d ∧ x.d ≤ 31 ∧ 0 ≤ x.t ∧ x.t < 1440

instance (x : DateTime) : Decidable (WFdt x) := by unfold WFdt; infer_instance

theorem dkey_le_iff {a b : DateTime} (ha : WFdt a) (hb : WFdt b) :
    dkey a ≤ dkey b ↔
      (a.ym < b.ym ∨ (a.ym = b.ym ∧ (a.d < b.d ∨ (a.d = b.d ∧ a.t ≤ b.t)))) := by
  obtain ⟨h1, h2, h3, h4⟩ := ha
  obtain ⟨h1', h2', h3', h4'⟩ := hb
  unfold dkey
  constructor <;> intro h <;> omega

theorem dkey_inj {a b : DateTime} (ha : WFdt a) (hb : WFdt b) (h : dkey a = dkey b) :
    a = b := by
  obtain ⟨h1, h2, h3, h4⟩ := ha
  obtain ⟨h1', h2', h3', h4'⟩ := hb
  unfold dkey at h
  obtain ⟨a1, a2, a3⟩ := a
  obtain ⟨b1, b2, b3⟩ := b
  simp only at *
  have e1 : a1 = b1 := by omega
  have e2 : a2 = b2 := by omega
  have e3 : a3 = b3 := by omega
  rw [e1, e2, e3]

/-- Day-overflow normalization, rolling forward while the day exceeds the
month length (the behaviour of the JavaScript `Date` constructor and
`setMonth` for a too-large day component). -/
def normDayF : Nat → Int → Int → Int × Int
  | 0, ym, d => (ym, d)
  | fuel + 1, ym, d =>
    if d ≤ daysInMonth ym then (ym, d)
    else normDayF fuel (ym + 1) (d - daysInMonth ym)

/-- Day-underflow normalization, rolling backward while the day is below 1. -/
def normDayB : Nat → Int → Int → Int × Int
  | 0, ym, d => (ym, d)
  | fuel + 1, ym, d =>
    if 1 ≤ d then (ym, d)
    else normDayB fuel (ym - 1) (d + daysInMonth (ym - 1))

/-- `normYmD ym d t` is the normalized instant of
`new Date(year, month, d)` at `t` minutes within the day, where
`ym` = year*12 + month (the month itself may be any integer — JavaScript
already normalizes it by this very encoding). -/
def normYmD (ym d t : Int) : DateTime :=
  if 1 ≤ d then
    let p := normDayF d.toNat ym d
    ⟨p.1, p.2, t⟩
  else
    let p := normDayB (2 - d).toNat ym d
    ⟨p.1, p.2, t⟩

theorem normDayF_spec : ∀ (fuel : Nat) (ym d : Int), 1 ≤ d → d ≤ 28 * (fuel + 1) →
    1 ≤ (normDayF fuel ym d).2 ∧
      (normDayF fuel ym d).2 ≤ daysInMonth (normDayF fuel ym d).1 ∧
      ym ≤ (normDayF fuel ym d).1 := by
  intro fuel
  induction fuel with
  | zero =>
    intro ym d h1 h2
    have := daysInMonth_bounds ym
    simp only [normDayF]
    exact ⟨h1, by omega, le_refl _⟩
  | succ n ih =>
    intro ym d h1 h2
    by_cases hd : d ≤ daysInMonth ym
    · simp only [normDayF, if_pos hd]
      exact ⟨h1, hd, le_refl _⟩
    · simp only [normDayF, if_neg hd]
      have hb := daysInMonth_bounds ym
      have h3 := ih (ym + 1) (d - daysInMonth ym) (by omega) (by omega)
      exact ⟨h3.1, h3.2.1, by omega⟩

theorem normYmD_spec (ym d t : Int) (hd : 1 ≤ d) :
    1 ≤ (normYmD ym d t).d ∧ (normYmD ym d t).d ≤ daysInMonth (normYmD ym d t).ym ∧
      ym ≤ (normYmD ym d t).ym := by
  unfold normYmD
  rw [if_pos hd]
  exact normDayF_spec d.toNat ym d hd (by omega)

theorem normYmD_t (ym d t : Int) : (normYmD ym d t).t = t := by
  unfold normYmD
  split <;> rfl

theorem normYmD_wf (ym d t : Int) (hd : 1 ≤ d) (ht : 0 ≤ t) (ht' : t < 1440) :
    WFdt (normYmD ym d t) := by
  have h := normYmD_spec ym d t hd
  have hb := daysInMonth_bounds (normYmD ym d t).ym
  exact ⟨h.1, by omega, by rw [normYmD_t]; exact ht, by rw [normYmD_t]; exact ht'⟩

theorem normYmD_id (ym d t : Int) (h1 : 1 ≤ d) (h2 : d ≤ daysInMonth ym) :
    normYmD ym d t = ⟨ym, d, t⟩ := by
  unfold normYmD
  rw [if_pos h1]
  have hb := daysInMonth_bounds ym
  have : d.toNat = (d.toNat - 1) + 1 := by omega
  rw [this]
  simp only [normDayF, if_pos h2]

/-! ## Ledger data model

`Tx` is a transaction record `{id, date, description, amount, recurringId}`;
`Rule` is a recurrence rule of the installments variant of `src/main.js`
`{id, description, amount, day, installments, appliedCount, lastApplied}`. -/

structure Tx where
  id : Nat
  date : DateTime
  description : String
  amount : ℚ
  recurringId : Option Nat
deriving DecidableEq, Repr

structure Rule where
  id : Nat
  description : String
  amount : ℚ
  day : Int
  installments : Int
  appliedCount : Int
  lastApplied : Option DateTime
deriving DecidableEq, Repr

/-- The comparator `(a, b) => new Date(a.date) - new Date(b.date)` of
`this.state.transactions.sort` in `applyAndSortRecurring` (src/main.js:142). -/
def txLe (a b : Tx) : Prop := dkey a.date ≤ dkey b.date

instance : DecidableRel txLe := fun a b => by unfold txLe; infer_instance

instance : IsTotal Tx txLe := ⟨fun _ _ => le_total _ _⟩

instance : IsTrans Tx txLe := ⟨fun _ _ _ h h' => le_trans h h'⟩

/-- JavaScript `Array.prototype.sort` is stable; `insertionSort` is the
stable sort used throughout this embedding. -/
def sortByDateAsc (txs : List Tx) : List Tx := List.insertionSort txLe txs

/-- `new Date(Math.min(new Date(), [...transactions].sort((a,b) => a.date - b.date)[0].date))`
(src/main.js:124-126): the earlier of now and the earliest transaction date;
just `new Date()` when there are no transactions.  The fold computes the
minimum instant of `now` and all transaction dates, which is the same value. -/
def seedDate (now : DateTime) (txs : List Tx) : DateTime :=
  txs.foldl (fun acc t => if dkey t.date < dkey acc then t.date else acc) now

/-- `new Date(firstCheckDate.getFullYear(), firstCheckDate.getMonth(), expense.day, 12, 0, 0)`
(src/main.js:131): the occurrence date for the candidate month, midday. -/
def candDate (fym day : Int) : DateTime := normYmD fym day 720

/-- `new Date(new Date().setFullYear(new Date().getFullYear() + 5))`
(src/main.js:130): the hard scan ceiling, five years after now. -/
def ceil5y (now : DateTime) : DateTime := normYmD (now.ym + 60) now.d now.t

/-- `t.recurringId === expense.id && t.date.getTime() === transactionDate.getTime()`
(src/main.js:132): the exact-timestamp deduplication test. -/
def refMatch (rid : Nat) (td : DateTime) (t : Tx) : Bool :=
  decide (t.recurringId = some rid ∧ t.date = td)

/-- Result of one rule's `while` loop in `applyAndSortRecurring`:
final `appliedCount`, final `lastApplied`, transaction list, id supply and
the number of iterations performed (pure instrumentation). -/
structure LoopOut where
  cnt : Int
  la : Option DateTime
  txs : List Tx
  nid : Nat
  iters : Nat
deriving Repr

/-- The `while` loop of src/main.js:130-140, one iteration per candidate
month.  The loop variable `firstCheckDate` always has day 1 (it is set by
`setDate(1)` before the loop and `setMonth(+1)` keeps day 1), so it is
represented by its month `fym` and its time-of-day `ft`.  `fuel` is a
structural-recursion bound; `ruleLoop_stable` below shows the caller's fuel
always reaches the loop's own exit condition. -/
def ruleLoop (C : DateTime) (rid : Nat) (descr : String) (amt : ℚ) (day inst : Int) :
    Nat → Int → Option DateTime → Int → Int → List Tx → Nat → LoopOut
  | 0, cnt, la, _, _, txs, nid => ⟨cnt, la, txs, nid, 0⟩
  | fuel + 1, cnt, la, fym, ft, txs, nid =>
    if cnt < inst ∧ dkey ⟨fym, 1, ft⟩ ≤ dkey C then
      let td := candDate fym day
      if txs.any (refMatch rid td) then
        -- alreadyExists: advance to the next month without creating
        let r := ruleLoop C rid descr amt day inst fuel cnt la (fym + 1) ft txs nid
        { r with iters := r.iters + 1 }
      else
        -- create the occurrence, advance lastApplied and appliedCount
        let r := ruleLoop C rid descr amt day inst fuel (cnt + 1) (some td) (fym + 1) ft
          (txs ++ [⟨nid, td, descr, amt, some rid⟩]) (nid + 1)
        { r with iters := r.iters + 1 }
    else ⟨cnt, la, txs, nid, 0⟩

/-- The initial `firstCheckDate` (month and time-of-day) of src/main.js:119-128:
from `lastApplied` plus one month when set (note `setMonth` on the full
`lastApplied` date may roll over a short month before `setDate(1)` truncates),
otherwise from the seed date; `setDate(1)` then forces day 1. -/
def startOf (now : DateTime) (txs : List Tx) (la : Option DateTime) : Int × Int :=
  match la with
  | some l => let j := normYmD (l.ym + 1) l.d l.t; (j.ym, j.t)
  | none => let sd := seedDate now txs; (sd.ym, sd.t)

/-- One rule's materialization (the `forEach` body of src/main.js:116-141),
including the `appliedCount >= installments` early return. -/
def applyRuleMain (now : DateTime) (r : Rule) (txs : List Tx) (nid : Nat) :
    Rule × List Tx × Nat :=
  if r.installments ≤ r.appliedCount then (r, txs, nid)
  else
    let C := ceil5y now
    let s := startOf now txs r.lastApplied
    let fuel := (C.ym + 1 - s.1).toNat + 1
    let o := ruleLoop C r.id r.description r.amount r.day r.installments fuel
      r.appliedCount r.lastApplied s.1 s.2 txs nid
    ({ r with appliedCount := o.cnt, lastApplied := o.la }, o.txs, o.nid)

/-- `this.state.recurringExpenses.forEach(...)` (src/main.js:116): each rule
is materialized in order against the accumulated transaction list. -/
def materializeRules (now : DateTime) :
    List Rule → List Tx → Nat → List Rule × List Tx × Nat
  | [], txs, nid => ([], txs, nid)
  | r :: rs, txs, nid =>
    let p := applyRuleMain now r txs nid
    let q := materializeRules now rs p.2.1 p.2.2
    (p.1 :: q.1, q.2.1, q.2.2)

/-- The ledger state of `FinanceApp` (src/main.js:13-19) restricted to the
fields the core logic reads: `transactions`, `recurringExpenses`, and the
id supply standing for `Date.now()` / `Date.now() + Math.random()`. -/
structure AppState where
  transactions : List Tx
  recurringExpenses : List Rule
  nextId : Nat
deriving Repr

/-- `FinanceApp.applyAndSortRecurring` (src/main.js:114-143): materialize
every rule, then sort the transactions ascending by date. -/
def applyAndSortRecurring (now : DateTime) (s : AppState) : AppState :=
  let m := materializeRules now s.recurringExpenses s.transactions s.nextId
  ⟨sortByDateAsc m.2.1, m.1, m.2.2⟩

/-! ## Controller operations of `FinanceApp` (src/main.js)

Each operation returns the new state together with the externally visible
outcome.  `confirm`/`alert` dialogs are modelled by a boolean answer passed
in and an `Outcome` value returned; `dataManager.save` is modelled by the
`saved` flag of the outcome. -/

/-- Input of `addTransaction` as produced by the form handler
(src/main.js:348): `parseFloat` may yield `NaN`, modelled by `none`. -/
structure TxInput where
  date : DateTime
  description : String
  amount : Option ℚ

/-- Input of `addRecurringExpense` (src/main.js:346): `parseFloat`/`parseInt`
may yield `NaN`, modelled by `none`. -/
structure RecurInput where
  description : String
  amount : Option ℚ
  day : Option Int
  installments : Option Int

/-- `FinanceApp.addTransaction` (src/main.js:63-70).  Rejects an empty
description (falsy string) or a `NaN` amount; otherwise pushes the
transaction with `recurringId: null`, materializes, sorts and saves.
The returned flag is whether `dataManager.save` ran. -/
def addTransaction (now : DateTime) (s : AppState) (i : TxInput) : AppState × Bool :=
  if i.description = "" ∨ i.amount = none then (s, false)
  else
    let s' := { s with
      transactions := s.transactions ++ [⟨s.nextId, i.date, i.description, i.amount.getD 0, none⟩],
      nextId := s.nextId + 1 }
    (applyAndSortRecurring now s', true)

/-- Outcome of `deleteTransaction`. -/
inductive DelOutcome where
  | notFound
  | alertRecurring
  | cancelled
  | deleted
deriving DecidableEq, Repr

/-- `FinanceApp.deleteTransaction` (src/main.js:71-82).  A transaction with
a non-null `recurringId` triggers the policy alert and nothing changes; an
unconfirmed delete changes nothing; otherwise the transaction is filtered
out and the state saved. -/
def deleteTransaction (s : AppState) (i : Nat) (confirmAnswer : Bool) :
    AppState × DelOutcome :=
  match s.transactions.find? (fun t => t.id == i) with
  | none => (s, .notFound)
  | some tx =>
    if tx.recurringId.isSome then (s, .alertRecurring)
    else if !confirmAnswer then (s, .cancelled)
    else ({ s with transactions := s.transactions.filter (fun t => !(t.id == i)) }, .deleted)

/-- `FinanceApp.addRecurringExpense` (src/main.js:83-91).  A positive amount
is negated; empty description or `NaN` amount/day/installments rejects;
otherwise the rule is pushed with `appliedCount: 0`, and the app
materializes and saves. -/
def addRecurringExpense (now : DateTime) (s : AppState) (i : RecurInput) : AppState × Bool :=
  let amt := i.amount.map (fun a => if 0 < a then -a else a)
  if i.description = "" ∨ amt = none ∨ i.day = none ∨ i.installments = none then (s, false)
  else
    let s' := { s with
      recurringExpenses := s.recurringExpenses ++
        [⟨s.nextId, i.description, amt.getD 0, i.day.getD 0, i.installments.getD 0, 0, none⟩],
      nextId := s.nextId + 1 }
    (applyAndSortRecurring now s', true)

/-- `FinanceApp.deleteRecurringExpense` (src/main.js:92-99).  Once confirmed,
drops every transaction whose `recurringId` equals the rule id and drops the
rule itself, then saves. -/
def deleteRecurringExpense (s : AppState) (i : Nat) (confirmAnswer : Bool) :
    AppState × Bool :=
  if !confirmAnswer then (s, false)
  else
    ({ s with
      transactions := s.transactions.filter (fun t => !(t.recurringId == some i)),
      recurringExpenses := s.recurringExpenses.filter (fun r => !(r.id == i)) }, true)

/-- Payload of a successfully parsed backup, after `DataManager.load`
revived the dates and migrated legacy rules (src/main.js:152-170); absent
arrays default to `[]` as in src/main.js:105-106. -/
structure ImportPayload where
  transactions : Option (List Tx)
  recurringExpenses : Option (List Rule)

/-- Outcome of `importData`. -/
inductive ImportOutcome where
  | alertInvalidJson
  | cancelled
  | success
deriving DecidableEq, Repr

/-- `FinanceApp.importData` (src/main.js:100-113).  `JSON.parse` is modelled
by its outcome: an `Except.error` is a thrown parse exception, caught by the
`catch` that raises the invalid-backup alert.  Only a confirmed, parsed
confirmed and parsed payload replaces the state, re-materializes and saves.
The flag is whether
`dataManager.save` ran. -/
def importData (now : DateTime) (s : AppState)
    (parsed : Except String ImportPayload) (confirmAnswer : Bool) :
    AppState × Bool × ImportOutcome :=
  match parsed with
  | .error _ => (s, false, .alertInvalidJson)
  | .ok p =>
    if !confirmAnswer then (s, false, .cancelled)
    else
      let s' := { s with
        transactions := p.transactions.getD [],
        recurringExpenses := p.recurringExpenses.getD [] }
      (applyAndSortRecurring now s', true, .success)

/-- A sequence of materializer invocations (`applyAndSortRecurring` at the
successive values of `new Date()`), as triggered by `init`, `changeMonth`,
`addTransaction`, `addRecurringExpense` and `importData`. -/
def iterApply : List DateTime → AppState → AppState
  | [], s => s
  | now :: rest, s => iterApply rest (applyAndSortRecurring now s)

/-! ## The endDate variant (src/unnamed/part_001, `App`)

`App.logic.applyRecurringExpenses(applyUntilDate)` takes an explicit horizon,
has no installments counter or iteration ceiling, skips months past the
rule's `endDate`, and deduplicates per calendar (year, month) instead of per
exact timestamp. -/

/-- A recurrence rule of the endDate variant
(`{id, description, amount, day, endDate, lastApplied}`).  `endDate` holds
the instant `new Date(expense.endDate + 'T23:59:59-03:00')`, the inclusive
end-of-day bound of part_001:92. -/
structure Rule001 where
  id : Nat
  description : String
  amount : ℚ
  day : Int
  endDate : Option DateTime
  lastApplied : Option DateTime
deriving DecidableEq, Repr

/-- `t.recurringId === expense.id && t.date.getFullYear() === td.getFullYear()
&& t.date.getMonth() === td.getMonth()` (part_001:95): per-month dedup. -/
def ref001Match (rid : Nat) (tdYm : Int) (t : Tx) : Bool :=
  decide (t.recurringId = some rid ∧ t.date.ym = tdYm)

/-- Result of the part_001 `while` loop: final `lastApplied`, transactions,
id supply, iteration count (instrumentation). -/
structure Loop001Out where
  la : Option DateTime
  txs : List Tx
  nid : Nat
  iters : Nat
deriving Repr

/-- `expense.endDate && transactionDate > new Date(expense.endDate + ...)`
(part_001:92): the skip-past-endDate test. -/
def skipEnd001 (endDt : Option DateTime) (td : DateTime) : Bool :=
  match endDt with
  | some e => decide (dkey e < dkey td)
  | none => false

/-- The `while (firstCheckDate <= applyUntilDate)` loop of part_001:90-102,
one iteration per candidate month: skip past `endDate`, else create unless
an occurrence for the same (year, month) exists. -/
def loop001 (H : DateTime) (rid : Nat) (descr : String) (amt : ℚ) (day : Int)
    (endDt : Option DateTime) :
    Nat → Option DateTime → Int → Int → List Tx → Nat → Loop001Out
  | 0, la, _, _, txs, nid => ⟨la, txs, nid, 0⟩
  | fuel + 1, la, fym, ft, txs, nid =>
    if dkey ⟨fym, 1, ft⟩ ≤ dkey H then
      let td := candDate fym day
      if skipEnd001 endDt td then
        let r := loop001 H rid descr amt day endDt fuel la (fym + 1) ft txs nid
        { r with iters := r.iters + 1 }
      else if txs.any (ref001Match rid td.ym) then
        let r := loop001 H rid descr amt day endDt fuel la (fym + 1) ft txs nid
        { r with iters := r.iters + 1 }
      else
        let r := loop001 H rid descr amt day endDt fuel (some td) (fym + 1) ft
          (txs ++ [⟨nid, td, descr, amt, some rid⟩]) (nid + 1)
        { r with iters := r.iters + 1 }
    else ⟨la, txs, nid, 0⟩

/-- One rule's materialization in `applyRecurringExpenses` (part_001:79-103);
the initial `firstCheckDate` is computed exactly as in the main variant. -/
def applyRule001 (now H : DateTime) (r : Rule001) (txs : List Tx) (nid : Nat) : Loop001Out :=
  let s := startOf now txs r.lastApplied
  let fuel := (H.ym + 1 - s.1).toNat + 1
  loop001 H r.id r.description r.amount r.day r.endDate fuel r.lastApplied s.1 s.2 txs nid

/-- The balance accumulation of `App.ui.renderFlowView` (part_001:152-154):
`balance += t.amount; balanceMap.set(t.id, balance)` along a list, starting
from a given balance. -/
def balanceList : ℚ → List Tx → List (Nat × ℚ)
  | _, [] => []
  | acc, t :: ts => (t.id, acc + t.amount) :: balanceList (acc + t.amount) ts

/-- The per-transaction balance entries of `renderFlowView`: walk the
ascending-by-date order (`sortedForBalance`, part_001:153) accumulating from
zero. -/
def flowBalanceEntries (txs : List Tx) : List (Nat × ℚ) :=
  balanceList 0 (sortByDateAsc txs)

/-! ## Append-only behaviour of the materializer -/

theorem ruleLoop_txs (C : DateTime) (rid : Nat) (descr : String) (amt : ℚ) (day inst : Int) :
    ∀ (fuel : Nat) (cnt : Int) (la : Option DateTime) (fym ft : Int) (txs : List Tx) (nid : Nat),
    ∃ new, (ruleLoop C rid descr amt day inst fuel cnt la fym ft txs nid).txs = txs ++ new ∧
      ∀ tx ∈ new, tx.recurringId = some rid := by
  intro fuel
  induction fuel with
  | zero =>
    intro cnt la fym ft txs nid
    exact ⟨[], by simp [ruleLoop], by simp⟩
  | succ n ih =>
    intro cnt la fym ft txs nid
    by_cases h : cnt < inst ∧ dkey ⟨fym, 1, ft⟩ ≤ dkey C
    · by_cases hex : txs.any (refMatch rid (candDate fym day)) = true
      · obtain ⟨new, hnew, hall⟩ := ih cnt la (fym + 1) ft txs nid
        exact ⟨new, by simp [ruleLoop, h, hex, hnew], hall⟩
      · obtain ⟨new, hnew, hall⟩ := ih (cnt + 1) (some (candDate fym day)) (fym + 1) ft
          (txs ++ [⟨nid, candDate fym day, descr, amt, some rid⟩]) (nid + 1)
        refine ⟨⟨nid, candDate fym day, descr, amt, some rid⟩ :: new, ?_, ?_⟩
        · simp only [ruleLoop, if_pos h, hex]
          simp only [Bool.false_eq_true, if_false, hnew, List.append_assoc,
            List.singleton_append]
        · intro tx htx
          rcases List.mem_cons.mp htx with h1 | h1
          · rw [h1]
          · exact hall tx h1
    · exact ⟨[], by simp [ruleLoop, h], by simp⟩

theorem applyRuleMain_txs (now : DateTime) (r : Rule) (txs : List Tx) (nid : Nat) :
    ∃ new, (applyRuleMain now r txs nid).2.1 = txs ++ new ∧
      ∀ tx ∈ new, tx.recurringId = some r.id := by
  unfold applyRuleMain
  by_cases h : r.installments ≤ r.appliedCount
  · exact ⟨[], by simp [h], by simp⟩
  · simp only [h, if_false]
    exact ruleLoop_txs _ _ _ _ _ _ _ _ _ _ _ _ _

theorem materializeRules_txs (now : DateTime) :
    ∀ (rules : List Rule) (txs : List Tx) (nid : Nat),
    ∃ new, (materializeRules now rules txs nid).2.1 = txs ++ new ∧
      ∀ tx ∈ new, ∃ r ∈ rules, tx.recurringId = some r.id := by
  intro rules
  induction rules with
  | nil => intro txs nid; exact ⟨[], by simp [materializeRules], by simp⟩
  | cons r rs ih =>
    intro txs nid
    obtain ⟨new1, hnew1, hall1⟩ := applyRuleMain_txs now r txs nid
    obtain ⟨new2, hnew2, hall2⟩ :=
      ih (applyRuleMain now r txs nid).2.1 (applyRuleMain now r txs nid).2.2
    refine ⟨new1 ++ new2, ?_, ?_⟩
    · simp only [materializeRules]
      rw [hnew2, hnew1, List.append_assoc]
    · intro tx htx
      rcases List.mem_append.mp htx with h1 | h1
      · exact ⟨r, List.mem_cons_self _ _, hall1 tx h1⟩
      · obtain ⟨r', hr', hid⟩ := hall2 tx h1
        exact ⟨r', List.mem_cons_of_mem _ hr', hid⟩

theorem mem_applyAndSort (now : DateTime) (s : AppState) (t : Tx)
    (h : t ∈ s.transactions) : t ∈ (applyAndSortRecurring now s).transactions := by
  unfold applyAndSortRecurring sortByDateAsc
  rw [List.mem_insertionSort]
  obtain ⟨new, hnew, -⟩ := materializeRules_txs now s.recurringExpenses s.transactions s.nextId
  rw [hnew]
  exact List.mem_append_left _ h

theorem find_id_nodup :
    ∀ (l : List Tx) (t : Tx), (l.map Tx.id).Nodup → t ∈ l →
      l.find? (fun u => u.id == t.id) = some t := by
  intro l
  induction l with
  | nil => intro t _ hmem; cases hmem
  | cons h tl ih =>
    intro t hnd hmem
    rcases List.mem_cons.mp hmem with heq | hmem'
    · subst heq
      simp [List.find?]
    · have hne : h.id ≠ t.id := by
        intro hc
        have : t.id ∈ tl.map Tx.id := List.mem_map_of_mem Tx.id hmem'
        rw [← hc] at this
        exact (List.nodup_cons.mp (by simpa using hnd)).1 this
      have : (h.id == t.id) = false := by simp [hne]
      simp only [List.find?, this]
      exact ih t (List.nodup_cons.mp (by simpa using hnd)).2 hmem'

/-! ## Claims C3, C4, C5, C6, C7, C9, C10 -/

/-- C7: for an input string that is not valid JSON (`JSON.parse` throws,
modelled by `Except.error`), `importData` reports the distinct
invalid-backup-file alert and returns the state unchanged with no
persistence save. -/
theorem c7_import_malformed_rejected (now : DateTime) (s : AppState) (e : String) (c : Bool) :
    importData now s (Except.error e) c = (s, false, ImportOutcome.alertInvalidJson) := rfl

/-- C6: a confirmed `deleteRecurringExpense rid` removes exactly the
transactions whose `recurringId` equals `rid` — every such transaction is
gone, every other transaction is retained (in order, unchanged) — and every
rule with id `rid` is removed while all other rules are retained. -/
theorem c6_cascade_delete_exact (s : AppState) (rid : Nat) :
    (∀ t ∈ s.transactions, t.recurringId = some rid →
        t ∉ (deleteRecurringExpense s rid true).1.transactions) ∧
    (∀ t ∈ s.transactions, t.recurringId ≠ some rid →
        t ∈ (deleteRecurringExpense s rid true).1.transactions) ∧
    (∀ t ∈ (deleteRecurringExpense s rid true).1.transactions,
        t ∈ s.transactions ∧ t.recurringId ≠ some rid) ∧
    ((deleteRecurringExpense s rid true).1.transactions).Sublist s.transactions ∧
    (∀ ru ∈ (deleteRecurringExpense s rid true).1.recurringExpenses, ru.id ≠ rid) ∧
    (∀ ru ∈ s.recurringExpenses, ru.id ≠ rid →
        ru ∈ (deleteRecurringExpense s rid true).1.recurringExpenses) := by
  have hres : (deleteRecurringExpense s rid true).1 =
      { s with
        transactions := s.transactions.filter (fun t => !(t.recurringId == some rid)),
        recurringExpenses := s.recurringExpenses.filter (fun r => !(r.id == rid)) } := rfl
  rw [hres]
  refine ⟨?_, ?_, ?_, ?_, ?_, ?_⟩
  · intro t ht hr hc
    have h2 := (List.mem_filter.mp hc).2
    rw [hr] at h2
    simp at h2
  · intro t ht hr
    exact List.mem_filter.mpr ⟨ht, by simpa using hr⟩
  · intro t ht
    obtain ⟨h1, h2⟩ := List.mem_filter.mp ht
    exact ⟨h1, by simpa using h2⟩
  · exact List.filter_sublist _
  · intro ru hru
    have h2 := (List.mem_filter.mp hru).2
    simpa using h2
  · intro ru hru hne
    exact List.mem_filter.mpr ⟨hru, by simpa using hne⟩

/-- C6 witness: the cascade facts of `c6_cascade_delete_exact` evaluated on a
two-transaction, one-rule ledger. -/
theorem c6_cascade_delete_exact_witness :
    (⟨7, ⟨24300, 5, 720⟩, "Rent", -100, some 3⟩ : Tx) ∉
      (deleteRecurringExpense
        ⟨[⟨7, ⟨24300, 5, 720⟩, "Rent", -100, some 3⟩, ⟨8, ⟨24300, 6, 0⟩, "Pay", 50, none⟩],
         [⟨3, "Rent", -100, 5, 12, 1, some ⟨24300, 5, 720⟩⟩], 9⟩ 3 true).1.transactions ∧
    (⟨8, ⟨24300, 6, 0⟩, "Pay", 50, none⟩ : Tx) ∈
      (deleteRecurringExpense
        ⟨[⟨7, ⟨24300, 5, 720⟩, "Rent", -100, some 3⟩, ⟨8, ⟨24300, 6, 0⟩, "Pay", 50, none⟩],
         [⟨3, "Rent", -100, 5, 12, 1, some ⟨24300, 5, 720⟩⟩], 9⟩ 3 true).1.transactions :=
  ⟨(c6_cascade_delete_exact _ 3).1 _ (by simp) rfl,
   (c6_cascade_delete_exact _ 3).2.1 _ (by simp) (by simp)⟩

/-- C5: a transaction with a non-null `recurringId` is never deleted by the
single-transaction path: `deleteTransaction` raises the policy alert and
returns the whole state unchanged regardless of the confirm answer; such a
transaction is removed by deleting its owning rule. -/
theorem c5_recurring_delete_policy (s : AppState) (t : Tx) (confirmAnswer : Bool)
    (hmem : t ∈ s.transactions) (hnd : (s.transactions.map Tx.id).Nodup)
    (hrec : t.recurringId.isSome = true) :
    deleteTransaction s t.id confirmAnswer = (s, DelOutcome.alertRecurring) ∧
    (∀ rid, t.recurringId = some rid →
      t ∉ (deleteRecurringExpense s rid true).1.transactions) := by
  constructor
  · unfold deleteTransaction
    rw [find_id_nodup s.transactions t hnd hmem]
    simp [hrec]
  · intro rid hr hc
    have h2 := (List.mem_filter.mp hc).2
    rw [hr] at h2
    simp at h2

/-- C5 witness: `c5_recurring_delete_policy` evaluated on a ledger holding a
single materialized transaction. -/
theorem c5_recurring_delete_policy_witness :
    deleteTransaction ⟨[⟨5, ⟨24300, 1, 720⟩, "Rent", -10, some 2⟩], [], 6⟩ 5 true =
      (⟨[⟨5, ⟨24300, 1, 720⟩, "Rent", -10, some 2⟩], [], 6⟩, DelOutcome.alertRecurring) ∧
    (⟨5, ⟨24300, 1, 720⟩, "Rent", -10, some 2⟩ : Tx) ∉
      (deleteRecurringExpense ⟨[⟨5, ⟨24300, 1, 720⟩, "Rent", -10, some 2⟩], [], 6⟩ 2
        true).1.transactions :=
  ⟨(c5_recurring_delete_policy _ ⟨5, ⟨24300, 1, 720⟩, "Rent", -10, some 2⟩ true
      (by simp) (by simp) rfl).1,
   (c5_recurring_delete_policy _ ⟨5, ⟨24300, 1, 720⟩, "Rent", -10, some 2⟩ true
      (by simp) (by simp) rfl).2 2 rfl⟩

/-- C4 counterexample: a creation input with amount exactly zero and a
non-empty description IS accepted by `addTransaction` — a transaction is
created and a save occurs, contrary to the claim that zero is rejected. -/
theorem c4_counterexample :
    (addTransaction ⟨24301, 5, 600⟩ ⟨[], [], 0⟩ ⟨⟨24301, 5, 600⟩, "Lunch", some 0⟩).2 = true ∧
    (addTransaction ⟨24301, 5, 600⟩ ⟨[], [], 0⟩
        ⟨⟨24301, 5, 600⟩, "Lunch", some 0⟩).1.transactions =
      [⟨0, ⟨24301, 5, 600⟩, "Lunch", 0, none⟩] := by
  constructor
  · rfl
  · rfl

/-- C4 (amended): `addTransaction` rejects a creation input (state unchanged,
no save) exactly when the description is empty or the amount is `NaN`; an
input with amount zero and non-empty description is accepted — it appends a
transaction with amount 0 and a save occurs. -/
theorem c4_rejects_only_empty_or_nan (now : DateTime) (s : AppState) (i : TxInput) :
    (addTransaction now s i = (s, false) ↔ (i.description = "" ∨ i.amount = none)) ∧
    (i.description ≠ "" → i.amount = some 0 →
      (addTransaction now s i).2 = true ∧
      ∃ t ∈ (addTransaction now s i).1.transactions,
        t.id = s.nextId ∧ t.amount = 0 ∧ t.recurringId = none) := by
  constructor
  · constructor
    · intro h
      by_contra hc
      push_neg at hc
      unfold addTransaction at h
      rw [if_neg (by tauto)] at h
      have := congrArg Prod.snd h
      simp at this
    · intro h
      unfold addTransaction
      rw [if_pos h]
  · intro hd ha
    have hcond : ¬(i.description = "" ∨ i.amount = none) := by
      rintro (h | h)
      · exact hd h
      · rw [ha] at h
        cases h
    unfold addTransaction
    rw [if_neg hcond]
    refine ⟨rfl, ⟨s.nextId, i.date, i.description, 0, none⟩, ?_, rfl, rfl, rfl⟩
    apply mem_applyAndSort
    simp only [ha]
    exact List.mem_append_right _ (by simp [Option.getD])

/-- C4 witness: the accepted-zero branch of `c4_rejects_only_empty_or_nan`
evaluated at a concrete zero-amount input. -/
theorem c4_rejects_only_empty_or_nan_witness :
    (addTransaction ⟨24301, 5, 600⟩ ⟨[], [], 0⟩ ⟨⟨24301, 5, 600⟩, "Tea", some 0⟩).2 = true ∧
    ∃ t ∈ (addTransaction ⟨24301, 5, 600⟩ ⟨[], [], 0⟩
        ⟨⟨24301, 5, 600⟩, "Tea", some 0⟩).1.transactions,
      t.id = 0 ∧ t.amount = 0 ∧ t.recurringId = none :=
  (c4_rejects_only_empty_or_nan ⟨24301, 5, 600⟩ ⟨[], [], 0⟩
    ⟨⟨24301, 5, 600⟩, "Tea", some 0⟩).2 (by simp) rfl

/-- C3 (code bug): a rule with day 31 whose scan starts in February 2025
(ym 24301) materializes `new Date(2025, 1, 31, 12)` — which JavaScript rolls
to March 3 — and then March 31, leaving TWO transactions of the same rule in
March 2025 (ym 24302): per-month uniqueness fails in `src/main.js` because
deduplication is by exact timestamp, not by (year, month). -/
theorem c3_day_overflow_breaks_month_uniqueness :
    ((applyAndSortRecurring ⟨24301, 1, 600⟩
        ⟨[], [⟨1, "Rent", -100, 31, 2, 0, none⟩], 0⟩).transactions.countP
      (fun t => decide (t.recurringId = some 1 ∧ t.date.ym = 24302))) = 2 ∧
    (applyAndSortRecurring ⟨24301, 1, 600⟩
        ⟨[], [⟨1, "Rent", -100, 31, 2, 0, none⟩], 0⟩).transactions =
      [⟨0, ⟨24302, 3, 720⟩, "Rent", -100, some 1⟩,
       ⟨1, ⟨24302, 31, 720⟩, "Rent", -100, some 1⟩] := by
  constructor
  · rfl
  · rfl

/-- C10: after every `applyAndSortRecurring` — hence after every mutating
controller operation that ends in it — the transaction list is sorted
ascending by date, and both delete operations preserve sortedness since
they filter the list. -/
theorem c10_sorted_ascending_invariant (now : DateTime) (s : AppState) (i j : Nat)
    (c c' : Bool) :
    List.Sorted txLe (applyAndSortRecurring now s).transactions ∧
    (List.Sorted txLe s.transactions →
      List.Sorted txLe (deleteTransaction s i c).1.transactions ∧
      List.Sorted txLe (deleteRecurringExpense s j c').1.transactions) := by
  constructor
  · exact List.sorted_insertionSort txLe _
  · intro hs
    constructor
    · unfold deleteTransaction
      cases hfind : s.transactions.find? (fun t => t.id == i) with
      | none => exact hs
      | some tx =>
        by_cases hrec : tx.recurringId.isSome
        · simp only [hrec, if_true]
          exact hs
        · simp only [hrec, Bool.false_eq_true, if_false]
          cases c with
          | false => exact hs
          | true => exact hs.sublist (List.filter_sublist _)
    · unfold deleteRecurringExpense
      cases c' with
      | false => exact hs
      | true => exact hs.sublist (List.filter_sublist _)

/-- C10 witness: `c10_sorted_ascending_invariant` evaluated at a concrete
two-transaction state. -/
theorem c10_sorted_ascending_invariant_witness :
    List.Sorted txLe (applyAndSortRecurring ⟨24301, 1, 600⟩
      ⟨[⟨1, ⟨24301, 1, 0⟩, "b", -4, none⟩, ⟨0, ⟨24301, 2, 0⟩, "a", 4, none⟩], [], 2⟩).transactions ∧
    List.Sorted txLe (deleteTransaction
      ⟨[⟨1, ⟨24301, 1, 0⟩, "b", -4, none⟩, ⟨0, ⟨24301, 2, 0⟩, "a", 4, none⟩], [], 2⟩ 0
      true).1.transactions := by
  have h := c10_sorted_ascending_invariant ⟨24301, 1, 600⟩
    ⟨[⟨1, ⟨24301, 1, 0⟩, "b", -4, none⟩, ⟨0, ⟨24301, 2, 0⟩, "a", 4, none⟩], [], 2⟩ 0 1 true true
  refine ⟨h.1, ?_⟩
  have hsorted : List.Sorted txLe
      [⟨1, ⟨24301, 1, 0⟩, "b", -4, none⟩, (⟨0, ⟨24301, 2, 0⟩, "a", 4, none⟩ : Tx)] := by
    decide
  exact (h.2 hsorted).1

theorem balanceList_last (l : List Tx) :
    ∀ acc : ℚ, l ≠ [] →
      (balanceList acc l).getLast?.map Prod.snd = some (acc + (l.map Tx.amount).sum) ∧
      (balanceList acc l).getLast?.map Prod.fst = l.getLast?.map Tx.id := by
  induction l with
  | nil => intro acc h; exact absurd rfl h
  | cons a tl ih =>
    intro acc _
    cases tl with
    | nil =>
      constructor
      · simp [balanceList]
      · simp [balanceList]
    | cons b tl2 =>
      obtain ⟨h1, h2⟩ := ih (acc + a.amount) (by simp)
      have hbl : balanceList acc (a :: b :: tl2) =
          (a.id, acc + a.amount) :: balanceList (acc + a.amount) (b :: tl2) := rfl
      have hbl2 : balanceList (acc + a.amount) (b :: tl2) =
          (b.id, acc + a.amount + b.amount) :: balanceList (acc + a.amount + b.amount) tl2 := rfl
      constructor
      · rw [hbl, hbl2, List.getLast?_cons_cons, ← hbl2, h1]
        congr 1
        simp only [List.map_cons, List.sum_cons]
        ring
      · rw [hbl, hbl2, List.getLast?_cons_cons, ← hbl2, h2, List.getLast?_cons_cons]

/-- C9: for a non-empty transaction set, the running balance built along the
ascending-by-date order (as `renderFlowView` builds the per-transaction
balance map) assigns to the last transaction of that order a balance equal
to the sum of all transactions' amounts. -/
theorem c9_last_running_balance_is_total (txs : List Tx) (h : txs ≠ []) :
    (flowBalanceEntries txs).getLast?.map Prod.snd = some ((txs.map Tx.amount).sum) ∧
    (flowBalanceEntries txs).getLast?.map Prod.fst =
      (sortByDateAsc txs).getLast?.map Tx.id := by
  have hs : sortByDateAsc txs ≠ [] := by
    unfold sortByDateAsc
    intro hc
    have hp := List.perm_insertionSort txLe txs
    rw [hc] at hp
    exact h hp.nil_eq.symm
  obtain ⟨h1, h2⟩ := balanceList_last (sortByDateAsc txs) 0 hs
  have hperm : ((sortByDateAsc txs).map Tx.amount).Perm (txs.map Tx.amount) :=
    (List.perm_insertionSort txLe txs).map Tx.amount
  constructor
  · rw [flowBalanceEntries, h1, zero_add, hperm.sum_eq]
  · rw [flowBalanceEntries, h2]

/-- C9 witness: `c9_last_running_balance_is_total` evaluated at a concrete
two-transaction ledger (total 2). -/
theorem c9_last_running_balance_is_total_witness :
    (flowBalanceEntries
      [⟨1, ⟨24300, 2, 0⟩, "a", 5, none⟩, ⟨2, ⟨24300, 1, 0⟩, "b", -3, none⟩]).getLast?.map
        Prod.snd =
      some (([⟨1, ⟨24300, 2, 0⟩, "a", 5, none⟩,
        (⟨2, ⟨24300, 1, 0⟩, "b", -3, none⟩ : Tx)].map Tx.amount).sum) ∧
    (flowBalanceEntries
      [⟨1, ⟨24300, 2, 0⟩, "a", 5, none⟩, ⟨2, ⟨24300, 1, 0⟩, "b", -3, none⟩]).getLast?.map
        Prod.fst =
      (sortByDateAsc
        [⟨1, ⟨24300, 2, 0⟩, "a", 5, none⟩, ⟨2, ⟨24300, 1, 0⟩, "b", -3, none⟩]).getLast?.map
        Tx.id :=
  c9_last_running_balance_is_total
    [⟨1, ⟨24300, 2, 0⟩, "a", 5, none⟩, ⟨2, ⟨24300, 1, 0⟩, "b", -3, none⟩] (by simp)

/-! ## Claim C2: installments cap -/

/-- Number of transactions referencing rule id `rid`. -/
def countRef (txs : List Tx) (rid : Nat) : Nat :=
  txs.countP (fun t => decide (t.recurringId = some rid))

theorem countRef_append (l1 l2 : List Tx) (j : Nat) :
    countRef (l1 ++ l2) j = countRef l1 j + countRef l2 j := by
  unfold countRef
  exact List.countP_append _ _ _

theorem countRef_single (t : Tx) (j : Nat) :
    countRef [t] j = if t.recurringId = some j then 1 else 0 := by
  unfold countRef
  by_cases h : t.recurringId = some j <;> simp [List.countP_cons, h]

theorem countRef_perm {l1 l2 : List Tx} (h : l1.Perm l2) (j : Nat) :
    countRef l1 j = countRef l2 j := h.countP_eq _

theorem ruleLoop_count (C : DateTime) (rid : Nat) (descr : String) (amt : ℚ) (day inst : Int) :
    ∀ (fuel : Nat) (cnt : Int) (la : Option DateTime) (fym ft : Int) (txs : List Tx) (nid : Nat),
      cnt ≤ (ruleLoop C rid descr amt day inst fuel cnt la fym ft txs nid).cnt ∧
      (cnt ≤ inst → (ruleLoop C rid descr amt day inst fuel cnt la fym ft txs nid).cnt ≤ inst) ∧
      countRef (ruleLoop C rid descr amt day inst fuel cnt la fym ft txs nid).txs rid =
        countRef txs rid +
          ((ruleLoop C rid descr amt day inst fuel cnt la fym ft txs nid).cnt - cnt).toNat ∧
      ∀ j : Nat, j ≠ rid →
        countRef (ruleLoop C rid descr amt day inst fuel cnt la fym ft txs nid).txs j =
          countRef txs j := by
  intro fuel
  induction fuel with
  | zero =>
    intro cnt la fym ft txs nid
    simp [ruleLoop]
  | succ n ih =>
    intro cnt la fym ft txs nid
    by_cases h : cnt < inst ∧ dkey ⟨fym, 1, ft⟩ ≤ dkey C
    · by_cases hex : txs.any (refMatch rid (candDate fym day)) = true
      · have hr := ih cnt la (fym + 1) ft txs nid
        simp only [ruleLoop, if_pos h, hex, if_true]
        exact ⟨hr.1, hr.2.1, hr.2.2.1, hr.2.2.2⟩
      · have hr := ih (cnt + 1) (some (candDate fym day)) (fym + 1) ft
          (txs ++ [⟨nid, candDate fym day, descr, amt, some rid⟩]) (nid + 1)
        simp only [ruleLoop, if_pos h, hex, Bool.false_eq_true, if_false]
        obtain ⟨hlt, hceil⟩ := h
        obtain ⟨i1, i2, i3, i4⟩ := hr
        refine ⟨by omega, fun _ => i2 (by omega), ?_, ?_⟩
        · have hone : (if (some rid : Option Nat) = some rid then 1 else 0) = 1 := if_pos rfl
          rw [i3, countRef_append, countRef_single, hone]
          omega
        · intro j hj
          rw [i4 j hj, countRef_append, countRef_single]
          have : ¬((some rid : Option Nat) = some j) := by
            intro hc
            exact hj (Option.some_injective _ hc).symm
          simp [this]
    · simp [ruleLoop, h]

theorem applyRuleMain_count (now : DateTime) (r : Rule) (txs : List Tx) (nid : Nat) :
    r.appliedCount ≤ (applyRuleMain now r txs nid).1.appliedCount ∧
    (r.appliedCount ≤ r.installments →
      (applyRuleMain now r txs nid).1.appliedCount ≤ r.installments) ∧
    countRef (applyRuleMain now r txs nid).2.1 r.id =
      countRef txs r.id +
        ((applyRuleMain now r txs nid).1.appliedCount - r.appliedCount).toNat ∧
    (∀ j : Nat, j ≠ r.id → countRef (applyRuleMain now r txs nid).2.1 j = countRef txs j) ∧
    (applyRuleMain now r txs nid).1.id = r.id ∧
    (applyRuleMain now r txs nid).1.installments = r.installments ∧
    (applyRuleMain now r txs nid).1.day = r.day := by
  unfold applyRuleMain
  by_cases h : r.installments ≤ r.appliedCount
  · simp [h]
  · simp only [h, if_false]
    have hr := ruleLoop_count (ceil5y now) r.id r.description r.amount r.day r.installments
      ((ceil5y now).ym + 1 - (startOf now txs r.lastApplied).1).toNat.succ
      r.appliedCount r.lastApplied (startOf now txs r.lastApplied).1
      (startOf now txs r.lastApplied).2 txs nid
    refine ⟨hr.1, hr.2.1, hr.2.2.1, hr.2.2.2, ?_, ?_, ?_⟩ <;> trivial

theorem materializeRules_ids (now : DateTime) :
    ∀ (rules : List Rule) (txs : List Tx) (nid : Nat),
      (materializeRules now rules txs nid).1.map Rule.id = rules.map Rule.id := by
  intro rules
  induction rules with
  | nil => intro txs nid; rfl
  | cons r rs ih =>
    intro txs nid
    simp only [materializeRules, List.map_cons]
    rw [ih]
    congr 1
    exact (applyRuleMain_count now r txs nid).2.2.2.2.1

theorem materializeRules_countRef_notin (now : DateTime) :
    ∀ (rules : List Rule) (txs : List Tx) (nid : Nat) (j : Nat),
      (∀ r ∈ rules, r.id ≠ j) →
      countRef (materializeRules now rules txs nid).2.1 j = countRef txs j := by
  intro rules
  induction rules with
  | nil => intro txs nid j _; rfl
  | cons r rs ih =>
    intro txs nid j hall
    simp only [materializeRules]
    rw [ih _ _ j (fun r' hr' => hall r' (List.mem_cons_of_mem _ hr'))]
    exact (applyRuleMain_count now r txs nid).2.2.2.1 j
      (fun hc => hall r (List.mem_cons_self _ _) hc.symm)

theorem materializeRules_tracked (now : DateTime) :
    ∀ (rules : List Rule) (txs : List Tx) (nid : Nat) (r : Rule),
      r ∈ rules → (rules.map Rule.id).Nodup →
      ∃ r' ∈ (materializeRules now rules txs nid).1,
        r'.id = r.id ∧ r'.installments = r.installments ∧
        r.appliedCount ≤ r'.appliedCount ∧
        (r.appliedCount ≤ r.installments → r'.appliedCount ≤ r.installments) ∧
        countRef (materializeRules now rules txs nid).2.1 r.id =
          countRef txs r.id + (r'.appliedCount - r.appliedCount).toNat := by
  intro rules
  induction rules with
  | nil => intro txs nid r hmem; cases hmem
  | cons h rs ih =>
    intro txs nid r hmem hnd
    rw [List.map_cons, List.nodup_cons] at hnd
    rcases List.mem_cons.mp hmem with heq | hmem'
    · subst heq
      obtain ⟨a1, a2, a3, a4, a5, a6, a7⟩ := applyRuleMain_count now r txs nid
      refine ⟨(applyRuleMain now r txs nid).1, ?_, a5, a6, a1, a2, ?_⟩
      · simp only [materializeRules]
        exact List.mem_cons_self _ _
      · simp only [materializeRules]
        rw [materializeRules_countRef_notin now rs _ _ r.id ?hnotin, a3]
        intro r' hr' hc
        apply hnd.1
        rw [← hc]
        exact List.mem_map_of_mem Rule.id hr'
    · have hne : r.id ≠ h.id := by
        intro hc
        apply hnd.1
        rw [← hc]
        exact List.mem_map_of_mem Rule.id hmem'
      obtain ⟨b1, b2, b3, b4, b5, b6, b7⟩ := applyRuleMain_count now h txs nid
      obtain ⟨r', hr'mem, c1, c2, c3, c4, c5⟩ :=
        ih (applyRuleMain now h txs nid).2.1 (applyRuleMain now h txs nid).2.2 r hmem' hnd.2
      refine ⟨r', ?_, c1, c2, c3, c4, ?_⟩
      · simp only [materializeRules]
        exact List.mem_cons_of_mem _ hr'mem
      · simp only [materializeRules]
        rw [c5, b4 r.id hne]

/-- C2: a rule with `installments = N` never accumulates more than N
materialized transactions, across any number of materializer invocations at
any dates.  The hypotheses hold in particular at rule creation
(`appliedCount = 0`, no transaction references the fresh id yet):
the count of transactions referencing the rule stays at most its
`appliedCount`, which never exceeds `installments`. -/
theorem c2_installments_cap (s : AppState) (r : Rule) (nows : List DateTime)
    (hnd : (s.recurringExpenses.map Rule.id).Nodup)
    (hmem : r ∈ s.recurringExpenses)
    (hcnt : (countRef s.transactions r.id : Int) ≤ r.appliedCount)
    (hle : r.appliedCount ≤ r.installments) :
    (countRef (iterApply nows s).transactions r.id : Int) ≤ r.installments := by
  induction nows generalizing s r with
  | nil => exact le_trans hcnt hle
  | cons now rest ih =>
    obtain ⟨r', hr'mem, hid, hinst, hinc, hcap, hcount⟩ :=
      materializeRules_tracked now s.recurringExpenses s.transactions s.nextId r hmem hnd
    have hstep : iterApply (now :: rest) s = iterApply rest (applyAndSortRecurring now s) := rfl
    rw [hstep]
    have hnd1 : ((applyAndSortRecurring now s).recurringExpenses.map Rule.id).Nodup := by
      show (((materializeRules now s.recurringExpenses s.transactions s.nextId).1).map
        Rule.id).Nodup
      rw [materializeRules_ids]
      exact hnd
    have hcnt1 : (countRef (applyAndSortRecurring now s).transactions r'.id : Int) ≤
        r'.appliedCount := by
      have hperm : (applyAndSortRecurring now s).transactions.Perm
          (materializeRules now s.recurringExpenses s.transactions s.nextId).2.1 :=
        List.perm_insertionSort txLe _
      rw [countRef_perm hperm, hid, hcount]
      omega
    have hle1 : r'.appliedCount ≤ r'.installments := by
      rw [hinst]
      exact hcap hle
    have := ih (applyAndSortRecurring now s) r' hnd1 hr'mem hcnt1 hle1
    rw [hid, hinst] at this
    exact this

/-- C2 witness: `c2_installments_cap` with a fresh 2-installment rule and
three materializer invocations months apart. -/
theorem c2_installments_cap_witness :
    (countRef (iterApply [⟨24301, 1, 600⟩, ⟨24303, 2, 700⟩, ⟨24310, 5, 0⟩]
      ⟨[], [⟨1, "Gym", -50, 10, 2, 0, none⟩], 0⟩).transactions 1 : Int) ≤ 2 :=
  c2_installments_cap ⟨[], [⟨1, "Gym", -50, 10, 2, 0, none⟩], 0⟩
    ⟨1, "Gym", -50, 10, 2, 0, none⟩ [⟨24301, 1, 600⟩, ⟨24303, 2, 700⟩, ⟨24310, 5, 0⟩]
    (by simp) (by simp) (by simp [countRef]) (by norm_num)

/-! ## Claim C8: termination and iteration bounds -/

theorem normDayF_base (fuel : Nat) (ym d : Int) (h2 : d ≤ daysInMonth ym) :
    normDayF fuel ym d = (ym, d) := by
  cases fuel with
  | zero => rfl
  | succ n => simp [normDayF, h2]

theorem normYmD_ym_eq (ym d t : Int) (h1 : 1 ≤ d) :
    (normYmD ym d t).ym = (normDayF d.toNat ym d).1 := by
  unfold normYmD
  rw [if_pos h1]

theorem normYmD_ym_le (ym d t : Int) (h1 : 1 ≤ d) (h2 : d ≤ 31) :
    (normYmD ym d t).ym ≤ ym + 1 := by
  rw [normYmD_ym_eq ym d t h1]
  by_cases hd : d ≤ daysInMonth ym
  · rw [normDayF_base _ _ _ hd]
    show ym ≤ ym + 1
    omega
  · have hb := daysInMonth_bounds ym
    have hb' := daysInMonth_bounds (ym + 1)
    have ht : d.toNat = (d.toNat - 1) + 1 := by omega
    rw [ht]
    simp only [normDayF, if_neg hd]
    rw [normDayF_base _ _ _ (by omega)]

theorem ceil5y_ym (now : DateTime) (h : WFdt now) :
    now.ym + 60 ≤ (ceil5y now).ym ∧ (ceil5y now).ym ≤ now.ym + 61 := by
  obtain ⟨h1, h2, h3, h4⟩ := h
  unfold ceil5y
  constructor
  · exact (normYmD_spec (now.ym + 60) now.d now.t h1).2.2
  · have := normYmD_ym_le (now.ym + 60) now.d now.t h1 h2
    omega

theorem dkey_cond_month (fym ft : Int) (C : DateTime) (hft0 : 0 ≤ ft) (hft1 : ft < 1440)
    (hC : WFdt C) (h : dkey ⟨fym, 1, ft⟩ ≤ dkey C) : fym ≤ C.ym := by
  obtain ⟨c1, c2, c3, c4⟩ := hC
  unfold dkey at h
  simp only at h
  omega

theorem ruleLoop_stable (C : DateTime) (rid : Nat) (descr : String) (amt : ℚ)
    (day inst : Int) (hC : WFdt C) :
    ∀ (fuel1 fuel2 : Nat) (cnt : Int) (la : Option DateTime) (fym ft : Int)
      (txs : List Tx) (nid : Nat), 0 ≤ ft → ft < 1440 →
      (C.ym + 1 - fym).toNat < fuel1 → (C.ym + 1 - fym).toNat < fuel2 →
      ruleLoop C rid descr amt day inst fuel1 cnt la fym ft txs nid =
        ruleLoop C rid descr amt day inst fuel2 cnt la fym ft txs nid := by
  intro fuel1
  induction fuel1 with
  | zero =>
    intro fuel2 cnt la fym ft txs nid _ _ h1 _
    omega
  | succ n ih =>
    intro fuel2 cnt la fym ft txs nid hft0 hft1 h1 h2
    cases fuel2 with
    | zero => omega
    | succ m =>
      by_cases h : cnt < inst ∧ dkey ⟨fym, 1, ft⟩ ≤ dkey C
      · have hmon : fym ≤ C.ym := dkey_cond_month fym ft C hft0 hft1 hC h.2
        have hm1 : (C.ym + 1 - (fym + 1)).toNat < n := by omega
        have hm2 : (C.ym + 1 - (fym + 1)).toNat < m := by omega
        by_cases hex : txs.any (refMatch rid (candDate fym day)) = true
        · have he : ruleLoop C rid descr amt day inst n cnt la (fym + 1) ft txs nid =
              ruleLoop C rid descr amt day inst m cnt la (fym + 1) ft txs nid :=
            ih m cnt la (fym + 1) ft txs nid hft0 hft1 hm1 hm2
          simp only [ruleLoop, if_pos h, hex, if_true, he]
        · have he : ruleLoop C rid descr amt day inst n (cnt + 1) (some (candDate fym day))
              (fym + 1) ft (txs ++ [⟨nid, candDate fym day, descr, amt, some rid⟩]) (nid + 1) =
              ruleLoop C rid descr amt day inst m (cnt + 1) (some (candDate fym day))
              (fym + 1) ft (txs ++ [⟨nid, candDate fym day, descr, amt, some rid⟩]) (nid + 1) :=
            ih m (cnt + 1) (some (candDate fym day)) (fym + 1) ft
              (txs ++ [⟨nid, candDate fym day, descr, amt, some rid⟩]) (nid + 1)
              hft0 hft1 hm1 hm2
          simp only [ruleLoop, if_pos h, hex, Bool.false_eq_true, if_false, he]
      · simp only [ruleLoop, if_neg h]

theorem ruleLoop_iters (C : DateTime) (rid : Nat) (descr : String) (amt : ℚ)
    (day inst : Int) (hC : WFdt C) :
    ∀ (fuel : Nat) (cnt : Int) (la : Option DateTime) (fym ft : Int)
      (txs : List Tx) (nid : Nat), 0 ≤ ft → ft < 1440 →
      (ruleLoop C rid descr amt day inst fuel cnt la fym ft txs nid).iters ≤
        (C.ym + 1 - fym).toNat := by
  intro fuel
  induction fuel with
  | zero =>
    intro cnt la fym ft txs nid _ _
    simp [ruleLoop]
  | succ n ih =>
    intro cnt la fym ft txs nid hft0 hft1
    by_cases h : cnt < inst ∧ dkey ⟨fym, 1, ft⟩ ≤ dkey C
    · have hmon : fym ≤ C.ym := dkey_cond_month fym ft C hft0 hft1 hC h.2
      by_cases hex : txs.any (refMatch rid (candDate fym day)) = true
      · have := ih cnt la (fym + 1) ft txs nid hft0 hft1
        simp only [ruleLoop, if_pos h, hex, if_true]
        omega
      · have := ih (cnt + 1) (some (candDate fym day)) (fym + 1) ft
          (txs ++ [⟨nid, candDate fym day, descr, amt, some rid⟩]) (nid + 1) hft0 hft1
        simp only [ruleLoop, if_pos h, hex, Bool.false_eq_true, if_false]
        omega
    · simp [ruleLoop, h]

theorem loop001_stable (H : DateTime) (rid : Nat) (descr : String) (amt : ℚ)
    (day : Int) (endDt : Option DateTime) (hH : WFdt H) :
    ∀ (fuel1 fuel2 : Nat) (la : Option DateTime) (fym ft : Int)
      (txs : List Tx) (nid : Nat), 0 ≤ ft → ft < 1440 →
      (H.ym + 1 - fym).toNat < fuel1 → (H.ym + 1 - fym).toNat < fuel2 →
      loop001 H rid descr amt day endDt fuel1 la fym ft txs nid =
        loop001 H rid descr amt day endDt fuel2 la fym ft txs nid := by
  intro fuel1
  induction fuel1 with
  | zero =>
    intro fuel2 la fym ft txs nid _ _ h1 _
    omega
  | succ n ih =>
    intro fuel2 la fym ft txs nid hft0 hft1 h1 h2
    cases fuel2 with
    | zero => omega
    | succ m =>
      by_cases h : dkey ⟨fym, 1, ft⟩ ≤ dkey H
      · have hmon : fym ≤ H.ym := dkey_cond_month fym ft H hft0 hft1 hH h
        have hm1 : (H.ym + 1 - (fym + 1)).toNat < n := by omega
        have hm2 : (H.ym + 1 - (fym + 1)).toNat < m := by omega
        have he1 : loop001 H rid descr amt day endDt n la (fym + 1) ft txs nid =
            loop001 H rid descr amt day endDt m la (fym + 1) ft txs nid :=
          ih m la (fym + 1) ft txs nid hft0 hft1 hm1 hm2
        by_cases hsk : skipEnd001 endDt (candDate fym day) = true
        · simp only [loop001, if_pos h, hsk, if_true, he1]
        · by_cases hex : txs.any (ref001Match rid (candDate fym day).ym) = true
          · simp only [loop001, if_pos h, hsk, Bool.false_eq_true, if_false, hex, if_true, he1]
          · have he2 : loop001 H rid descr amt day endDt n (some (candDate fym day)) (fym + 1)
                ft (txs ++ [⟨nid, candDate fym day, descr, amt, some rid⟩]) (nid + 1) =
                loop001 H rid descr amt day endDt m (some (candDate fym day)) (fym + 1)
                ft (txs ++ [⟨nid, candDate fym day, descr, amt, some rid⟩]) (nid + 1) :=
              ih m (some (candDate fym day)) (fym + 1) ft
                (txs ++ [⟨nid, candDate fym day, descr, amt, some rid⟩]) (nid + 1)
                hft0 hft1 hm1 hm2
            simp only [loop001, if_pos h, hsk, Bool.false_eq_true, if_false, hex, he2]
      · simp only [loop001, if_neg h]

theorem loop001_iters (H : DateTime) (rid : Nat) (descr : String) (amt : ℚ)
    (day : Int) (endDt : Option DateTime) (hH : WFdt H) :
    ∀ (fuel : Nat) (la : Option DateTime) (fym ft : Int) (txs : List Tx) (nid : Nat),
      0 ≤ ft → ft < 1440 →
      (loop001 H rid descr amt day endDt fuel la fym ft txs nid).iters ≤
        (H.ym + 1 - fym).toNat := by
  intro fuel
  induction fuel with
  | zero =>
    intro la fym ft txs nid _ _
    simp [loop001]
  | succ n ih =>
    intro la fym ft txs nid hft0 hft1
    by_cases h : dkey ⟨fym, 1, ft⟩ ≤ dkey H
    · have hmon : fym ≤ H.ym := dkey_cond_month fym ft H hft0 hft1 hH h
      by_cases hsk : skipEnd001 endDt (candDate fym day) = true
      · have := ih la (fym + 1) ft txs nid hft0 hft1
        simp only [loop001, if_pos h, hsk, if_true]
        omega
      · by_cases hex : txs.any (ref001Match rid (candDate fym day).ym) = true
        · have := ih la (fym + 1) ft txs nid hft0 hft1
          simp only [loop001, if_pos h, hsk, Bool.false_eq_true, if_false, hex, if_true]
          omega
        · have := ih (some (candDate fym day)) (fym + 1) ft
            (txs ++ [⟨nid, candDate fym day, descr, amt, some rid⟩]) (nid + 1) hft0 hft1
          simp only [loop001, if_pos h, hsk, Bool.false_eq_true, if_false, hex]
          omega
    · simp [loop001, h]

/-- C8 (amended): every per-rule materialization loop terminates.  With fuel
past the month distance to its bound the loop's result is already stable
(it has reached its own exit condition), and the iteration count is at most
that month distance plus one month.  In the installments variant
(src/main.js) the bound is the hard five-year ceiling `ceil5y now`; when the
scan does not start before the current month this gives at most 62
iterations.  The endDate variant (part_001) has NO five-year ceiling: its
loop is bounded by the caller's horizon, which can exceed 60 months. -/
theorem c8_loops_terminate_bounded
    (now C H : DateTime) (rid : Nat) (descr : String) (amt : ℚ) (day inst : Int)
    (cnt : Int) (la : Option DateTime) (endDt : Option DateTime)
    (fym ft : Int) (txs : List Tx) (nid : Nat) (fuel1 fuel2 : Nat)
    (hft0 : 0 ≤ ft) (hft1 : ft < 1440) (hC : WFdt C) (hH : WFdt H) (hnow : WFdt now)
    (h1 : (C.ym + 1 - fym).toNat < fuel1) (h2 : (C.ym + 1 - fym).toNat < fuel2)
    (g1 : (H.ym + 1 - fym).toNat < fuel1) (g2 : (H.ym + 1 - fym).toNat < fuel2) :
    (ruleLoop C rid descr amt day inst fuel1 cnt la fym ft txs nid =
      ruleLoop C rid descr amt day inst fuel2 cnt la fym ft txs nid) ∧
    ((ruleLoop C rid descr amt day inst fuel1 cnt la fym ft txs nid).iters ≤
      (C.ym + 1 - fym).toNat) ∧
    (C = ceil5y now → now.ym ≤ fym →
      (ruleLoop C rid descr amt day inst fuel1 cnt la fym ft txs nid).iters ≤ 62) ∧
    (loop001 H rid descr amt day endDt fuel1 la fym ft txs nid =
      loop001 H rid descr amt day endDt fuel2 la fym ft txs nid) ∧
    ((loop001 H rid descr amt day endDt fuel1 la fym ft txs nid).iters ≤
      (H.ym + 1 - fym).toNat) := by
  refine ⟨ruleLoop_stable C rid descr amt day inst hC fuel1 fuel2 cnt la fym ft txs nid
      hft0 hft1 h1 h2,
    ruleLoop_iters C rid descr amt day inst hC fuel1 cnt la fym ft txs nid hft0 hft1, ?_,
    loop001_stable H rid descr amt day endDt hH fuel1 fuel2 la fym ft txs nid
      hft0 hft1 g1 g2,
    loop001_iters H rid descr amt day endDt hH fuel1 la fym ft txs nid hft0 hft1⟩
  intro hceq hstart
  have hb := ceil5y_ym now hnow
  rw [← hceq] at hb
  have hi := ruleLoop_iters C rid descr amt day inst hC fuel1 cnt la fym ft txs nid hft0 hft1
  omega

/-- C8 witness: `c8_loops_terminate_bounded` at a concrete rule, with the
ceiling five years from February 2025. -/
theorem c8_loops_terminate_bounded_witness :
    (ruleLoop ⟨24361, 1, 600⟩ 1 "W" (-5) 1 3 100 0 none 24301 600 [] 0 =
      ruleLoop ⟨24361, 1, 600⟩ 1 "W" (-5) 1 3 70 0 none 24301 600 [] 0) ∧
    (ruleLoop ⟨24361, 1, 600⟩ 1 "W" (-5) 1 3 100 0 none 24301 600 [] 0).iters ≤
      ((24361 : Int) + 1 - 24301).toNat ∧
    (ruleLoop ⟨24361, 1, 600⟩ 1 "W" (-5) 1 3 100 0 none 24301 600 [] 0).iters ≤ 62 ∧
    (loop001 ⟨24361, 1, 600⟩ 1 "W" (-5) 1 none 100 none 24301 600 [] 0 =
      loop001 ⟨24361, 1, 600⟩ 1 "W" (-5) 1 none 70 none 24301 600 [] 0) ∧
    (loop001 ⟨24361, 1, 600⟩ 1 "W" (-5) 1 none 100 none 24301 600 [] 0).iters ≤
      ((24361 : Int) + 1 - 24301).toNat := by
  have h := c8_loops_terminate_bounded ⟨24301, 1, 600⟩ ⟨24361, 1, 600⟩ ⟨24361, 1, 600⟩
    1 "W" (-5) 1 3 0 none none 24301 600 [] 0 100 70
    (by norm_num) (by norm_num) (by decide) (by decide) (by decide)
    (by decide) (by decide) (by decide) (by decide)
  exact ⟨h.1, h.2.1, h.2.2.1 (by decide) (by norm_num), h.2.2.2.1, h.2.2.2.2⟩

/-- C8 counterexample: the endDate-variant loop (part_001) is NOT bounded by
a five-year/60-iteration ceiling: browsing the calendar ten years ahead
hands the loop a horizon 120 months out and it performs 121 iterations
(terminating, but far over the claimed ceiling) — here with a rule whose
endDate lies in the past, so every month is merely skipped. -/
theorem c8_counterexample_no_ceiling_in_part001 :
    (applyRule001 ⟨24301, 1, 600⟩ ⟨24421, 28, 600⟩
      ⟨1, "Old", -10, 5, some ⟨24000, 1, 1439⟩, none⟩ [] 0).iters = 121 ∧ 62 < 121 :=
  ⟨rfl, by norm_num⟩

/-! ## Claim C1: idempotence of the materializer -/

theorem dkey_mono_ym (ym ym' t : Int) (h : ym ≤ ym') :
    dkey ⟨ym, 1, t⟩ ≤ dkey ⟨ym', 1, t⟩ := by
  unfold dkey
  simp only
  omega

theorem dkey_mono_t (ym t t' : Int) (h : t ≤ t') :
    dkey ⟨ym, 1, t⟩ ≤ dkey ⟨ym, 1, t'⟩ := by
  unfold dkey
  simp only
  omega

theorem dkey_d1_le (x : DateTime) (h : 1 ≤ x.d) : dkey ⟨x.ym, 1, x.t⟩ ≤ dkey x := by
  unfold dkey
  simp only
  omega

theorem dkey_now_lt_ceil (now : DateTime) (h : WFdt now) :
    dkey now < dkey (ceil5y now) := by
  have hym := (ceil5y_ym now h).1
  have hwf : WFdt (ceil5y now) := normYmD_wf _ _ _ h.1 h.2.2.1 h.2.2.2
  obtain ⟨a1, a2, a3, a4⟩ := h
  obtain ⟨b1, b2, b3, b4⟩ := hwf
  unfold dkey
  omega

theorem dkey_swap_t (C : DateTime) (hC : WFdt C) (ym t1 : Int)
    (h0 : 0 ≤ t1) (h1 : t1 < 1440) (h : dkey ⟨ym, 1, t1⟩ ≤ dkey C) :
    dkey ⟨ym, 1, C.t⟩ ≤ dkey C := by
  obtain ⟨c1, c2, c3, c4⟩ := hC
  unfold dkey at *
  simp only at *
  omega

theorem ceil5y_t (now : DateTime) : (ceil5y now).t = now.t := normYmD_t _ _ _

theorem seedDate_le :
    ∀ (txs : List Tx) (acc : DateTime),
      dkey (txs.foldl (fun a t => if dkey t.date < dkey a then t.date else a) acc) ≤
        dkey acc := by
  intro txs
  induction txs with
  | nil => intro acc; exact le_refl _
  | cons t ts ih =>
    intro acc
    simp only [List.foldl_cons]
    by_cases h : dkey t.date < dkey acc
    · rw [if_pos h]
      exact le_trans (ih t.date) (le_of_lt h)
    · rw [if_neg h]
      exact ih acc

theorem seedDate_cases (now : DateTime) (txs : List Tx) :
    seedDate now txs = now ∨ ∃ t ∈ txs, seedDate now txs = t.date := by
  unfold seedDate
  suffices h : ∀ (l : List Tx) (acc : DateTime),
      l.foldl (fun a t => if dkey t.date < dkey a then t.date else a) acc = acc ∨
        ∃ t ∈ l, l.foldl (fun a t => if dkey t.date < dkey a then t.date else a) acc =
          t.date by
    rcases h txs now with h1 | ⟨t, ht, h1⟩
    · exact Or.inl h1
    · exact Or.inr ⟨t, ht, h1⟩
  intro l
  induction l with
  | nil => intro acc; exact Or.inl rfl
  | cons t ts ih =>
    intro acc
    simp only [List.foldl_cons]
    by_cases h : dkey t.date < dkey acc
    · rw [if_pos h]
      rcases ih t.date with h1 | ⟨u, hu, h1⟩
      · exact Or.inr ⟨t, List.mem_cons_self _ _, h1⟩
      · exact Or.inr ⟨u, List.mem_cons_of_mem _ hu, h1⟩
    · rw [if_neg h]
      rcases ih acc with h1 | ⟨u, hu, h1⟩
      · exact Or.inl h1
      · exact Or.inr ⟨u, List.mem_cons_of_mem _ hu, h1⟩

theorem countRef_zero_any (txs : List Tx) (rid : Nat) (h : countRef txs rid = 0)
    (td : DateTime) : txs.any (refMatch rid td) = false := by
  rw [List.any_eq_false]
  intro tx htx
  have := List.countP_eq_zero.mp h tx htx
  simp only [decide_eq_true_eq] at this
  unfold refMatch
  simp only [decide_eq_true_eq]
  intro hc
  exact this hc.1

theorem ruleLoop_skipAll (C : DateTime) (rid : Nat) (descr : String) (amt : ℚ)
    (day inst : Int) :
    ∀ (fuel : Nat) (cnt : Int) (la : Option DateTime) (fym ft : Int)
      (txs : List Tx) (nid : Nat),
      (∀ ym : Int, fym ≤ ym → dkey ⟨ym, 1, ft⟩ ≤ dkey C →
        ∃ tx ∈ txs, tx.recurringId = some rid ∧ tx.date = candDate ym day) →
      (ruleLoop C rid descr amt day inst fuel cnt la fym ft txs nid).cnt = cnt ∧
      (ruleLoop C rid descr amt day inst fuel cnt la fym ft txs nid).la = la ∧
      (ruleLoop C rid descr amt day inst fuel cnt la fym ft txs nid).txs = txs ∧
      (ruleLoop C rid descr amt day inst fuel cnt la fym ft txs nid).nid = nid := by
  intro fuel
  induction fuel with
  | zero =>
    intro cnt la fym ft txs nid _
    exact ⟨rfl, rfl, rfl, rfl⟩
  | succ n ih =>
    intro cnt la fym ft txs nid hcov
    by_cases h : cnt < inst ∧ dkey ⟨fym, 1, ft⟩ ≤ dkey C
    · obtain ⟨tx, htx, hrid, hdate⟩ := hcov fym (le_refl _) h.2
      have hex : txs.any (refMatch rid (candDate fym day)) = true := by
        rw [List.any_eq_true]
        refine ⟨tx, htx, ?_⟩
        unfold refMatch
        simp [hrid, hdate]
      have hr := ih cnt la (fym + 1) ft txs nid
        (fun ym hym hkey => hcov ym (by omega) hkey)
      simp only [ruleLoop, if_pos h, hex, if_true]
      exact hr
    · simp [ruleLoop, h]

theorem ruleLoop_new (C : DateTime) (rid : Nat) (descr : String) (amt : ℚ)
    (day inst : Int) :
    ∀ (fuel : Nat) (cnt : Int) (la : Option DateTime) (fym ft : Int)
      (txs : List Tx) (nid : Nat),
      ∃ new, (ruleLoop C rid descr amt day inst fuel cnt la fym ft txs nid).txs =
          txs ++ new ∧
        ∀ tx ∈ new, tx.recurringId = some rid ∧
          ∃ m : Int, fym ≤ m ∧ tx.date = candDate m day := by
  intro fuel
  induction fuel with
  | zero =>
    intro cnt la fym ft txs nid
    exact ⟨[], by simp [ruleLoop], by simp⟩
  | succ n ih =>
    intro cnt la fym ft txs nid
    by_cases h : cnt < inst ∧ dkey ⟨fym, 1, ft⟩ ≤ dkey C
    · by_cases hex : txs.any (refMatch rid (candDate fym day)) = true
      · obtain ⟨new, hnew, hall⟩ := ih cnt la (fym + 1) ft txs nid
        refine ⟨new, by simp [ruleLoop, h, hex, hnew], ?_⟩
        intro tx htx
        obtain ⟨h1, m, hm, h2⟩ := hall tx htx
        exact ⟨h1, m, by omega, h2⟩
      · obtain ⟨new, hnew, hall⟩ := ih (cnt + 1) (some (candDate fym day)) (fym + 1) ft
          (txs ++ [⟨nid, candDate fym day, descr, amt, some rid⟩]) (nid + 1)
        refine ⟨⟨nid, candDate fym day, descr, amt, some rid⟩ :: new, ?_, ?_⟩
        · simp only [ruleLoop, if_pos h, hex, Bool.false_eq_true, if_false]
          rw [hnew, List.append_assoc, List.singleton_append]
        · intro tx htx
          rcases List.mem_cons.mp htx with h1 | h1
          · exact ⟨by rw [h1], fym, le_refl _, by rw [h1]⟩
          · obtain ⟨h1', m, hm, h2⟩ := hall tx h1
            exact ⟨h1', m, by omega, h2⟩
    · exact ⟨[], by simp [ruleLoop, h], by simp⟩

theorem ruleLoop_la (C : DateTime) (rid : Nat) (descr : String) (amt : ℚ)
    (day inst : Int) :
    ∀ (fuel : Nat) (cnt : Int) (la : Option DateTime) (fym ft : Int)
      (txs : List Tx) (nid : Nat),
      ((ruleLoop C rid descr amt day inst fuel cnt la fym ft txs nid).la = la ∧
        (ruleLoop C rid descr amt day inst fuel cnt la fym ft txs nid).txs = txs ∧
        (ruleLoop C rid descr amt day inst fuel cnt la fym ft txs nid).cnt = cnt) ∨
      (∃ m : Int, fym ≤ m ∧
        (ruleLoop C rid descr amt day inst fuel cnt la fym ft txs nid).la =
          some (candDate m day)) := by
  intro fuel
  induction fuel with
  | zero =>
    intro cnt la fym ft txs nid
    exact Or.inl ⟨rfl, rfl, rfl⟩
  | succ n ih =>
    intro cnt la fym ft txs nid
    by_cases h : cnt < inst ∧ dkey ⟨fym, 1, ft⟩ ≤ dkey C
    · by_cases hex : txs.any (refMatch rid (candDate fym day)) = true
      · rcases ih cnt la (fym + 1) ft txs nid with ⟨h1, h2, h3⟩ | ⟨m, hm, h1⟩
        · exact Or.inl ⟨by simp [ruleLoop, h, hex, h1],
            by simp [ruleLoop, h, hex, h2], by simp [ruleLoop, h, hex, h3]⟩
        · exact Or.inr ⟨m, by omega, by simp [ruleLoop, h, hex, h1]⟩
      · rcases ih (cnt + 1) (some (candDate fym day)) (fym + 1) ft
          (txs ++ [⟨nid, candDate fym day, descr, amt, some rid⟩]) (nid + 1) with
          ⟨h1, h2, h3⟩ | ⟨m, hm, h1⟩
        · exact Or.inr ⟨fym, le_refl _, by simp [ruleLoop, h, hex, h1]⟩
        · exact Or.inr ⟨m, by omega, by simp [ruleLoop, h, hex, h1]⟩
    · exact Or.inl ⟨by simp [ruleLoop, h], by simp [ruleLoop, h], by simp [ruleLoop, h]⟩

theorem ruleLoop_cover (C : DateTime) (rid : Nat) (descr : String) (amt : ℚ)
    (day inst : Int) (hC : WFdt C) :
    ∀ (fuel : Nat) (cnt : Int) (la : Option DateTime) (fym ft : Int)
      (txs : List Tx) (nid : Nat),
      0 ≤ ft → ft < 1440 →
      (C.ym + 1 - fym).toNat < fuel →
      (ruleLoop C rid descr amt day inst fuel cnt la fym ft txs nid).cnt < inst →
      ∀ ym : Int, fym ≤ ym → dkey ⟨ym, 1, ft⟩ ≤ dkey C →
        ∃ tx ∈ (ruleLoop C rid descr amt day inst fuel cnt la fym ft txs nid).txs,
          tx.recurringId = some rid ∧ tx.date = candDate ym day := by
  intro fuel
  induction fuel with
  | zero =>
    intro cnt la fym ft txs nid _ _ hf _
    omega
  | succ n ih =>
    intro cnt la fym ft txs nid hft0 hft1 hf hcnt ym hym hkey
    by_cases h : cnt < inst ∧ dkey ⟨fym, 1, ft⟩ ≤ dkey C
    · have hmon : fym ≤ C.ym := dkey_cond_month fym ft C hft0 hft1 hC h.2
      have hf' : (C.ym + 1 - (fym + 1)).toNat < n := by omega
      by_cases hex : txs.any (refMatch rid (candDate fym day)) = true
      · rcases eq_or_lt_of_le hym with heq | hlt
        · obtain ⟨tx, htx, hmtch⟩ := List.any_eq_true.mp hex
          have hdec := of_decide_eq_true hmtch
          obtain ⟨new, hnew, -⟩ :=
            ruleLoop_txs C rid descr amt day inst n cnt la (fym + 1) ft txs nid
          refine ⟨tx, ?_, ?_⟩
          · simp only [ruleLoop, if_pos h, hex, if_true]
            rw [hnew]
            exact List.mem_append_left _ htx
          · rw [← heq]
            exact hdec
        · simp only [ruleLoop, if_pos h, hex, if_true] at hcnt ⊢
          exact ih cnt la (fym + 1) ft txs nid hft0 hft1 hf' hcnt ym (by omega) hkey
      · rcases eq_or_lt_of_le hym with heq | hlt
        · obtain ⟨new, hnew, -⟩ :=
            ruleLoop_txs C rid descr amt day inst n (cnt + 1) (some (candDate fym day))
              (fym + 1) ft (txs ++ [⟨nid, candDate fym day, descr, amt, some rid⟩]) (nid + 1)
          refine ⟨⟨nid, candDate fym day, descr, amt, some rid⟩, ?_, ?_⟩
          · simp only [ruleLoop, if_pos h, hex, Bool.false_eq_true, if_false]
            rw [hnew]
            exact List.mem_append_left _ (List.mem_append_right _ (List.mem_singleton.mpr rfl))
          · rw [← heq]
            exact ⟨rfl, rfl⟩
        · simp only [ruleLoop, if_pos h, hex, Bool.false_eq_true, if_false] at hcnt ⊢
          exact ih (cnt + 1) (some (candDate fym day)) (fym + 1) ft
            (txs ++ [⟨nid, candDate fym day, descr, amt, some rid⟩]) (nid + 1)
            hft0 hft1 hf' hcnt ym (by omega) hkey
    · rcases not_and_or.mp h with hc | hc
      · simp only [ruleLoop, if_neg h] at hcnt
        omega
      · exact absurd (le_trans (dkey_mono_ym fym ym ft hym) hkey) hc

/-- After a run of the per-rule loop, either the rule is exhausted
(`installments` reached) or `lastApplied` points somewhere such that every
month a re-run would visit already carries this rule's occurrence — the key
invariant behind idempotence of the materializer. -/
def RulePost (C : DateTime) (txsF : List Tx) (r : Rule) : Prop :=
  r.installments ≤ r.appliedCount ∨
  ∃ la, r.lastApplied = some la ∧ 0 ≤ la.t ∧ la.t < 1440 ∧
    ∀ ym : Int, (normYmD (la.ym + 1) la.d la.t).ym ≤ ym →
      dkey ⟨ym, 1, la.t⟩ ≤ dkey C →
      ∃ tx ∈ txsF, tx.recurringId = some r.id ∧ tx.date = candDate ym r.day

theorem rulePost_mono (C : DateTime) (txs1 txs2 : List Tx)
    (hsub : ∀ tx ∈ txs1, tx ∈ txs2) (r : Rule) (h : RulePost C txs1 r) :
    RulePost C txs2 r := by
  rcases h with h | ⟨la, h1, h2, h3, h4⟩
  · exact Or.inl h
  · refine Or.inr ⟨la, h1, h2, h3, fun ym hym hkey => ?_⟩
    obtain ⟨tx, htx, hp⟩ := h4 ym hym hkey
    exact ⟨tx, hsub tx htx, hp⟩

theorem ruleLoop_post (now : DateTime) (hnow : WFdt now) (rid : Nat) (descr : String)
    (amt : ℚ) (day inst : Int) (hday : 1 ≤ day)
    (fuel : Nat) (cnt : Int) (la : Option DateTime) (fym ft : Int)
    (txs : List Tx) (nid : Nat)
    (hft0 : 0 ≤ ft) (hft1 : ft < 1440) (hftok : ft ≤ 720 ∨ ft = now.t)
    (hfuel : ((ceil5y now).ym + 1 - fym).toNat < fuel)
    (hlaeq : ∀ la0, la = some la0 →
      (normYmD (la0.ym + 1) la0.d la0.t).ym = fym ∧ la0.t = ft)
    (hcreate1 : la = none → cnt < inst →
      txs.any (refMatch rid (candDate fym day)) = false ∧
        dkey ⟨fym, 1, ft⟩ ≤ dkey (ceil5y now)) :
    inst ≤ (ruleLoop (ceil5y now) rid descr amt day inst fuel cnt la fym ft txs nid).cnt ∨
    ∃ la1, (ruleLoop (ceil5y now) rid descr amt day inst fuel cnt la fym ft txs nid).la =
        some la1 ∧ 0 ≤ la1.t ∧ la1.t < 1440 ∧
      ∀ ym : Int, (normYmD (la1.ym + 1) la1.d la1.t).ym ≤ ym →
        dkey ⟨ym, 1, la1.t⟩ ≤ dkey (ceil5y now) →
        ∃ tx ∈ (ruleLoop (ceil5y now) rid descr amt day inst fuel cnt la fym ft txs nid).txs,
          tx.recurringId = some rid ∧ tx.date = candDate ym day := by
  have hC : WFdt (ceil5y now) := normYmD_wf _ _ _ hnow.1 hnow.2.2.1 hnow.2.2.2
  by_cases hoc : inst ≤
      (ruleLoop (ceil5y now) rid descr amt day inst fuel cnt la fym ft txs nid).cnt
  · exact Or.inl hoc
  · push_neg at hoc
    have cov := ruleLoop_cover (ceil5y now) rid descr amt day inst hC fuel cnt la fym ft
      txs nid hft0 hft1 hfuel hoc
    rcases ruleLoop_la (ceil5y now) rid descr amt day inst fuel cnt la fym ft txs nid with
      ⟨hla2, htxs2, hcnt2⟩ | ⟨m, hm, hla2⟩
    · rcases hlacase : la with _ | la0
      · -- lastApplied was null and the loop created nothing: impossible, the
        -- first visited month has no occurrence of this rule and is in range
        subst hlacase
        have hcnt3 : cnt < inst := by omega
        obtain ⟨hexf, hcond⟩ := hcreate1 rfl hcnt3
        exfalso
        cases fuel with
        | zero => omega
        | succ k =>
          obtain ⟨new, hnew, -⟩ := ruleLoop_txs (ceil5y now) rid descr amt day inst k
            (cnt + 1) (some (candDate fym day)) (fym + 1) ft
            (txs ++ [⟨nid, candDate fym day, descr, amt, some rid⟩]) (nid + 1)
          have hstep : (ruleLoop (ceil5y now) rid descr amt day inst (k + 1) cnt none fym ft
              txs nid).txs =
              (txs ++ [⟨nid, candDate fym day, descr, amt, some rid⟩]) ++ new := by
            simp only [ruleLoop, if_pos (And.intro hcnt3 hcond), hexf,
              Bool.false_eq_true, if_false]
            exact hnew
          rw [htxs2] at hstep
          have := congrArg List.length hstep
          simp only [List.length_append, List.length_singleton] at this
          omega
      · -- lastApplied unchanged: the re-scan range is exactly the scanned range
        subst hlacase
        obtain ⟨hstart, hteq⟩ := hlaeq la0 rfl
        refine Or.inr ⟨la0, hla2, by omega, by omega, fun ym hym hkey => ?_⟩
        rw [hstart] at hym
        rw [hteq] at hkey
        exact cov ym hym hkey
    · -- the loop created occurrences; lastApplied is the last candidate date
      have hwf1 : WFdt (candDate m day) := normYmD_wf _ _ _ hday (by norm_num) (by norm_num)
      have ht720 : (candDate m day).t = 720 := normYmD_t _ _ _
      refine Or.inr ⟨candDate m day, hla2, by omega, by omega, fun ym hym hkey => ?_⟩
      have hchain : fym < ym := by
        have h1 : m ≤ (candDate m day).ym := (normYmD_spec m day 720 hday).2.2
        have h2 : (candDate m day).ym + 1 ≤
            (normYmD ((candDate m day).ym + 1) (candDate m day).d (candDate m day).t).ym :=
          (normYmD_spec _ _ _ hwf1.1).2.2
        omega
      have hkey' : dkey ⟨ym, 1, ft⟩ ≤ dkey (ceil5y now) := by
        rw [ht720] at hkey
        rcases hftok with hle | heq
        · exact le_trans (dkey_mono_t ym ft 720 hle) hkey
        · have := dkey_swap_t (ceil5y now) hC ym 720 (by norm_num) (by norm_num) hkey
          rw [ceil5y_t] at this
          rw [heq]
          exact this
      exact cov ym (by omega) hkey'

theorem ruleLoop_la_wf (C : DateTime) (rid : Nat) (descr : String) (amt : ℚ)
    (day inst : Int) (hday : 1 ≤ day) (fuel : Nat) (cnt : Int) (la : Option DateTime)
    (fym ft : Int) (txs : List Tx) (nid : Nat)
    (hprev : ∀ la0, la = some la0 → WFdt la0 ∧ la0.t ≤ 720) :
    ∀ la1, (ruleLoop C rid descr amt day inst fuel cnt la fym ft txs nid).la = some la1 →
      WFdt la1 ∧ la1.t ≤ 720 := by
  intro la1 h1
  rcases ruleLoop_la C rid descr amt day inst fuel cnt la fym ft txs nid with
    ⟨h2, -, -⟩ | ⟨m, -, h2⟩
  · rw [h2] at h1
    exact hprev la1 h1
  · rw [h2] at h1
    have hwf : WFdt (candDate m day) := normYmD_wf _ _ _ hday (by norm_num) (by norm_num)
    have ht : (candDate m day).t = 720 := normYmD_t _ _ _
    rw [← Option.some_inj.mp h1]
    exact ⟨hwf, by omega⟩

theorem ruleLoop_new_wf (C : DateTime) (rid : Nat) (descr : String) (amt : ℚ)
    (day inst : Int) (hday : 1 ≤ day) (fuel : Nat) (cnt : Int) (la : Option DateTime)
    (fym ft : Int) (txs : List Tx) (nid : Nat) :
    ∃ new, (ruleLoop C rid descr amt day inst fuel cnt la fym ft txs nid).txs =
        txs ++ new ∧
      ∀ tx ∈ new, tx.recurringId = some rid ∧ WFdt tx.date ∧ tx.date.t ≤ 720 := by
  obtain ⟨new, h1, h2⟩ := ruleLoop_new C rid descr amt day inst fuel cnt la fym ft txs nid
  refine ⟨new, h1, fun tx htx => ?_⟩
  obtain ⟨hrid, m, _, hdate⟩ := h2 tx htx
  have hwf : WFdt (candDate m day) := normYmD_wf _ _ _ hday (by norm_num) (by norm_num)
  have ht : (candDate m day).t = 720 := normYmD_t _ _ _
  rw [hdate]
  exact ⟨hrid, hwf, by omega⟩

theorem startOf_facts (now : DateTime) (hnow : WFdt now) (txs : List Tx)
    (la : Option DateTime)
    (hT : ∀ t ∈ txs, WFdt t.date ∧ t.date.t ≤ 720)
    (hla : ∀ la0, la = some la0 → WFdt la0 ∧ la0.t ≤ 720) :
    0 ≤ (startOf now txs la).2 ∧ (startOf now txs la).2 < 1440 ∧
    ((startOf now txs la).2 ≤ 720 ∨ (startOf now txs la).2 = now.t) ∧
    (la = none →
      dkey ⟨(startOf now txs la).1, 1, (startOf now txs la).2⟩ ≤ dkey now) ∧
    (∀ la0, la = some la0 →
      (normYmD (la0.ym + 1) la0.d la0.t).ym = (startOf now txs la).1 ∧
      la0.t = (startOf now txs la).2) := by
  rcases la with _ | la0
  · have hwfseed : WFdt (seedDate now txs) := by
      rcases seedDate_cases now txs with h | ⟨t, ht, h⟩
      · rw [h]; exact hnow
      · rw [h]; exact (hT t ht).1
    have hle : dkey (seedDate now txs) ≤ dkey now := seedDate_le txs now
    have hso : startOf now txs none = ((seedDate now txs).ym, (seedDate now txs).t) := rfl
    rw [hso]
    refine ⟨hwfseed.2.2.1, hwfseed.2.2.2, ?_, ?_, ?_⟩
    · rcases seedDate_cases now txs with h | ⟨t, ht, h⟩
      · rw [h]
        exact Or.inr rfl
      · rw [h]
        exact Or.inl (hT t ht).2
    · intro _
      exact le_trans (dkey_d1_le (seedDate now txs) hwfseed.1) hle
    · intro la0 h
      cases h
  · obtain ⟨hwf0, h720⟩ := hla la0 rfl
    obtain ⟨w1, w2, w3, w4⟩ := hwf0
    have hso : startOf now txs (some la0) =
        ((normYmD (la0.ym + 1) la0.d la0.t).ym, (normYmD (la0.ym + 1) la0.d la0.t).t) := rfl
    rw [hso, normYmD_t]
    refine ⟨by omega, by omega, Or.inl h720, ?_, ?_⟩
    · intro h
      cases h
    · intro la1 h
      rw [Option.some_inj.mp h]
      exact ⟨rfl, rfl⟩

theorem applyRuleMain_noop (now : DateTime) (r : Rule) (txs : List Tx) (nid : Nat)
    (hpost : RulePost (ceil5y now) txs r) :
    applyRuleMain now r txs nid = (r, txs, nid) := by
  by_cases hg : r.installments ≤ r.appliedCount
  · unfold applyRuleMain
    rw [if_pos hg]
  · rcases hpost with hl | ⟨la, hla, h0, h1, hcov⟩
    · exact absurd hl hg
    · have hso : startOf now txs r.lastApplied =
          ((normYmD (la.ym + 1) la.d la.t).ym, la.t) := by
        rw [hla]
        show ((normYmD (la.ym + 1) la.d la.t).ym, (normYmD (la.ym + 1) la.d la.t).t) = _
        rw [normYmD_t]
      have hcov' : ∀ ym : Int, (startOf now txs r.lastApplied).1 ≤ ym →
          dkey ⟨ym, 1, (startOf now txs r.lastApplied).2⟩ ≤ dkey (ceil5y now) →
          ∃ tx ∈ txs, tx.recurringId = some r.id ∧ tx.date = candDate ym r.day := by
        rw [hso]
        exact hcov
      obtain ⟨e1, e2, e3, e4⟩ := ruleLoop_skipAll (ceil5y now) r.id r.description r.amount
        r.day r.installments
        (((ceil5y now).ym + 1 - (startOf now txs r.lastApplied).1).toNat + 1)
        r.appliedCount r.lastApplied (startOf now txs r.lastApplied).1
        (startOf now txs r.lastApplied).2 txs nid hcov'
      unfold applyRuleMain
      rw [if_neg hg]
      show ({ r with
          appliedCount := (ruleLoop (ceil5y now) r.id r.description r.amount r.day
            r.installments
            (((ceil5y now).ym + 1 - (startOf now txs r.lastApplied).1).toNat + 1)
            r.appliedCount r.lastApplied (startOf now txs r.lastApplied).1
            (startOf now txs r.lastApplied).2 txs nid).cnt,
          lastApplied := (ruleLoop (ceil5y now) r.id r.description r.amount r.day
            r.installments
            (((ceil5y now).ym + 1 - (startOf now txs r.lastApplied).1).toNat + 1)
            r.appliedCount r.lastApplied (startOf now txs r.lastApplied).1
            (startOf now txs r.lastApplied).2 txs nid).la },
        (ruleLoop (ceil5y now) r.id r.description r.amount r.day r.installments
          (((ceil5y now).ym + 1 - (startOf now txs r.lastApplied).1).toNat + 1)
          r.appliedCount r.lastApplied (startOf now txs r.lastApplied).1
          (startOf now txs r.lastApplied).2 txs nid).txs,
        (ruleLoop (ceil5y now) r.id r.description r.amount r.day r.installments
          (((ceil5y now).ym + 1 - (startOf now txs r.lastApplied).1).toNat + 1)
          r.appliedCount r.lastApplied (startOf now txs r.lastApplied).1
          (startOf now txs r.lastApplied).2 txs nid).nid) = (r, txs, nid)
      rw [e1, e2, e3, e4]

theorem applyRuleMain_post (now : DateTime) (hnow : WFdt now) (r : Rule) (txs : List Tx)
    (nid : Nat)
    (hT : ∀ t ∈ txs, WFdt t.date ∧ t.date.t ≤ 720)
    (hday : 1 ≤ r.day)
    (hla : ∀ la0, r.lastApplied = some la0 → WFdt la0 ∧ la0.t ≤ 720)
    (hnone : r.lastApplied = none → countRef txs r.id = 0) :
    RulePost (ceil5y now) (applyRuleMain now r txs nid).2.1 (applyRuleMain now r txs nid).1 ∧
    (∀ la1, (applyRuleMain now r txs nid).1.lastApplied = some la1 →
      WFdt la1 ∧ la1.t ≤ 720) ∧
    (∃ new, (applyRuleMain now r txs nid).2.1 = txs ++ new ∧
      ∀ tx ∈ new, tx.recurringId = some r.id ∧ WFdt tx.date ∧ tx.date.t ≤ 720) ∧
    (applyRuleMain now r txs nid).1.id = r.id ∧
    (applyRuleMain now r txs nid).1.day = r.day ∧
    (applyRuleMain now r txs nid).1.installments = r.installments := by
  by_cases hg : r.installments ≤ r.appliedCount
  · have hres : applyRuleMain now r txs nid = (r, txs, nid) := by
      unfold applyRuleMain
      rw [if_pos hg]
    rw [hres]
    exact ⟨Or.inl hg, hla, ⟨[], by simp, by simp⟩, rfl, rfl, rfl⟩
  · have hres : applyRuleMain now r txs nid =
        ({ r with
            appliedCount := (ruleLoop (ceil5y now) r.id r.description r.amount r.day
              r.installments
              (((ceil5y now).ym + 1 - (startOf now txs r.lastApplied).1).toNat + 1)
              r.appliedCount r.lastApplied (startOf now txs r.lastApplied).1
              (startOf now txs r.lastApplied).2 txs nid).cnt,
            lastApplied := (ruleLoop (ceil5y now) r.id r.description r.amount r.day
              r.installments
              (((ceil5y now).ym + 1 - (startOf now txs r.lastApplied).1).toNat + 1)
              r.appliedCount r.lastApplied (startOf now txs r.lastApplied).1
              (startOf now txs r.lastApplied).2 txs nid).la },
          (ruleLoop (ceil5y now) r.id r.description r.amount r.day r.installments
            (((ceil5y now).ym + 1 - (startOf now txs r.lastApplied).1).toNat + 1)
            r.appliedCount r.lastApplied (startOf now txs r.lastApplied).1
            (startOf now txs r.lastApplied).2 txs nid).txs,
          (ruleLoop (ceil5y now) r.id r.description r.amount r.day r.installments
            (((ceil5y now).ym + 1 - (startOf now txs r.lastApplied).1).toNat + 1)
            r.appliedCount r.lastApplied (startOf now txs r.lastApplied).1
            (startOf now txs r.lastApplied).2 txs nid).nid) := by
      unfold applyRuleMain
      rw [if_neg hg]
    obtain ⟨f0, f1, fok, fnone, fsome⟩ := startOf_facts now hnow txs r.lastApplied hT hla
    have hCwf : WFdt (ceil5y now) := normYmD_wf _ _ _ hnow.1 hnow.2.2.1 hnow.2.2.2
    have hpost := ruleLoop_post now hnow r.id r.description r.amount r.day r.installments
      hday (((ceil5y now).ym + 1 - (startOf now txs r.lastApplied).1).toNat + 1)
      r.appliedCount r.lastApplied (startOf now txs r.lastApplied).1
      (startOf now txs r.lastApplied).2 txs nid f0 f1 fok (by omega) fsome
      (fun hn hcnt => ⟨countRef_zero_any txs r.id (hnone hn) _,
        le_trans (fnone hn) (le_of_lt (dkey_now_lt_ceil now hnow))⟩)
    rw [hres]
    refine ⟨?_, ?_, ?_, ?_, ?_, ?_⟩
    · exact hpost
    · exact ruleLoop_la_wf (ceil5y now) r.id r.description r.amount r.day r.installments
        hday _ r.appliedCount r.lastApplied _ _ txs nid hla
    · exact ruleLoop_new_wf (ceil5y now) r.id r.description r.amount r.day r.installments
        hday _ r.appliedCount r.lastApplied _ _ txs nid
    · rfl
    · rfl
    · rfl

theorem materializeRules_noop (now : DateTime) :
    ∀ (rules : List Rule) (txs : List Tx) (nid : Nat),
      (∀ r ∈ rules, RulePost (ceil5y now) txs r) →
      materializeRules now rules txs nid = (rules, txs, nid) := by
  intro rules
  induction rules with
  | nil => intro txs nid _; rfl
  | cons r rs ih =>
    intro txs nid hall
    have h1 : applyRuleMain now r txs nid = (r, txs, nid) :=
      applyRuleMain_noop now r txs nid (hall r (List.mem_cons_self _ _))
    have h2 : materializeRules now rs txs nid = (rs, txs, nid) :=
      ih txs nid (fun r' hr' => hall r' (List.mem_cons_of_mem _ hr'))
    simp only [materializeRules, h1, h2]

theorem materializeRules_post (now : DateTime) (hnow : WFdt now) :
    ∀ (rules : List Rule) (txs : List Tx) (nid : Nat),
      (∀ t ∈ txs, WFdt t.date ∧ t.date.t ≤ 720) →
      (∀ r ∈ rules, 1 ≤ r.day ∧
        (∀ la0, r.lastApplied = some la0 → WFdt la0 ∧ la0.t ≤ 720) ∧
        (r.lastApplied = none → countRef txs r.id = 0)) →
      (rules.map Rule.id).Nodup →
      (∀ r' ∈ (materializeRules now rules txs nid).1,
        RulePost (ceil5y now) (materializeRules now rules txs nid).2.1 r') ∧
      (∀ t ∈ (materializeRules now rules txs nid).2.1, WFdt t.date ∧ t.date.t ≤ 720) := by
  intro rules
  induction rules with
  | nil =>
    intro txs nid hT _ _
    refine ⟨?_, hT⟩
    intro r' hr'
    cases hr'
  | cons r rs ih =>
    intro txs nid hT hR hnd
    rw [List.map_cons, List.nodup_cons] at hnd
    obtain ⟨hday, hlaw, hnone⟩ := hR r (List.mem_cons_self _ _)
    obtain ⟨hp1, hp2, ⟨new, hnew, hnewall⟩, hpid, hpday, hpinst⟩ :=
      applyRuleMain_post now hnow r txs nid hT hday hlaw hnone
    have hT' : ∀ t ∈ (applyRuleMain now r txs nid).2.1,
        WFdt t.date ∧ t.date.t ≤ 720 := by
      rw [hnew]
      intro t ht
      rcases List.mem_append.mp ht with h | h
      · exact hT t h
      · obtain ⟨-, hw, h7⟩ := hnewall t h
        exact ⟨hw, h7⟩
    have hR' : ∀ r'' ∈ rs, 1 ≤ r''.day ∧
        (∀ la0, r''.lastApplied = some la0 → WFdt la0 ∧ la0.t ≤ 720) ∧
        (r''.lastApplied = none →
          countRef (applyRuleMain now r txs nid).2.1 r''.id = 0) := by
      intro r'' hr''
      obtain ⟨d1, d2, d3⟩ := hR r'' (List.mem_cons_of_mem _ hr'')
      refine ⟨d1, d2, fun hn => ?_⟩
      rw [hnew, countRef_append, d3 hn]
      have hz : countRef new r''.id = 0 := by
        unfold countRef
        rw [List.countP_eq_zero]
        intro tx htx
        have h5 := (hnewall tx htx).1
        simp only [decide_eq_true_eq]
        rw [h5]
        intro hc
        apply hnd.1
        rw [Option.some_inj.mp hc]
        exact List.mem_map_of_mem Rule.id hr''
      omega
    obtain ⟨ih1, ih2⟩ := ih (applyRuleMain now r txs nid).2.1
      (applyRuleMain now r txs nid).2.2 hT' hR' hnd.2
    obtain ⟨new2, hnew2, -⟩ := materializeRules_txs now rs
      (applyRuleMain now r txs nid).2.1 (applyRuleMain now r txs nid).2.2
    constructor
    · intro r' hr'
      simp only [materializeRules] at hr' ⊢
      rcases List.mem_cons.mp hr' with heq | hmem
      · rw [heq]
        refine rulePost_mono _ _ _ ?_ _ hp1
        intro tx htx
        rw [hnew2]
        exact List.mem_append_left _ htx
      · exact ih1 r' hmem
    · simp only [materializeRules]
      exact ih2

/-- C1 (amended): the materializer is idempotent on well-formed ledger
states — ones whose transaction dates and `lastApplied` stamps are
normalized instants with time-of-day at or before midday (as all records the
application itself writes: manual transactions carry local midnight,
materialized ones midday), whose rules have day ≥ 1 and distinct ids, and
where a rule with null `lastApplied` has no materialized transactions yet.
Running `applyAndSortRecurring` twice at the same instant appends no new
transactions on the second run. -/
theorem c1_materializer_idempotent_amended (now : DateTime) (s : AppState)
    (hnow : WFdt now)
    (hT : ∀ t ∈ s.transactions, WFdt t.date ∧ t.date.t ≤ 720)
    (hR : ∀ r ∈ s.recurringExpenses, 1 ≤ r.day ∧
      (∀ la0, r.lastApplied = some la0 → WFdt la0 ∧ la0.t ≤ 720) ∧
      (r.lastApplied = none → countRef s.transactions r.id = 0))
    (hnd : (s.recurringExpenses.map Rule.id).Nodup) :
    (applyAndSortRecurring now (applyAndSortRecurring now s)).transactions.Perm
      (applyAndSortRecurring now s).transactions ∧
    (applyAndSortRecurring now (applyAndSortRecurring now s)).transactions.length =
      (applyAndSortRecurring now s).transactions.length := by
  obtain ⟨hposts, -⟩ := materializeRules_post now hnow s.recurringExpenses s.transactions
    s.nextId hT hR hnd
  have hs1 : applyAndSortRecurring now s =
      ⟨sortByDateAsc (materializeRules now s.recurringExpenses s.transactions s.nextId).2.1,
        (materializeRules now s.recurringExpenses s.transactions s.nextId).1,
        (materializeRules now s.recurringExpenses s.transactions s.nextId).2.2⟩ := rfl
  have hposts' : ∀ r' ∈ (applyAndSortRecurring now s).recurringExpenses,
      RulePost (ceil5y now) (applyAndSortRecurring now s).transactions r' := by
    rw [hs1]
    intro r' hr'
    refine rulePost_mono _ _ _ ?_ _ (hposts r' hr')
    intro tx htx
    exact (List.mem_insertionSort txLe).mpr htx
  have hnoop : materializeRules now (applyAndSortRecurring now s).recurringExpenses
      (applyAndSortRecurring now s).transactions (applyAndSortRecurring now s).nextId =
      ((applyAndSortRecurring now s).recurringExpenses,
        (applyAndSortRecurring now s).transactions,
        (applyAndSortRecurring now s).nextId) :=
    materializeRules_noop now _ _ _ hposts'
  have h2 : (applyAndSortRecurring now (applyAndSortRecurring now s)).transactions =
      sortByDateAsc (applyAndSortRecurring now s).transactions := by
    show (sortByDateAsc (materializeRules now
      (applyAndSortRecurring now s).recurringExpenses
      (applyAndSortRecurring now s).transactions
      (applyAndSortRecurring now s).nextId).2.1) = _
    rw [hnoop]
  rw [h2]
  exact ⟨List.perm_insertionSort txLe _, (List.perm_insertionSort txLe _).length_eq⟩

/-- C1 counterexample: idempotence fails on a reachable-looking state whose
earliest transaction carries a time-of-day after midday (15:00).  The first
run seeds its scan at that time-of-day, so its ceiling comparison stops one
month short of what the second run's midday-stamped `lastApplied` resumption
allows: at 13:20 on the 1st of the month, the second invocation creates one
more transaction (64 instead of 63). -/
theorem c1_counterexample_second_run_appends :
    ((applyAndSortRecurring ⟨24301, 1, 800⟩
      ⟨[⟨100, ⟨24299, 1, 900⟩, "Seed", 5, none⟩], [⟨1, "Sub", -20, 1, 63, 0, none⟩],
        0⟩).transactions.length = 63) ∧
    ((applyAndSortRecurring ⟨24301, 1, 800⟩ (applyAndSortRecurring ⟨24301, 1, 800⟩
      ⟨[⟨100, ⟨24299, 1, 900⟩, "Seed", 5, none⟩], [⟨1, "Sub", -20, 1, 63, 0, none⟩],
        0⟩)).transactions.length = 64) := by
  constructor
  · rfl
  · rfl

/-- C1 witness: `c1_materializer_idempotent_amended` at a concrete
well-formed state — one manual midnight transaction and one fresh
2-installment rule. -/
theorem c1_materializer_idempotent_amended_witness :
    (applyAndSortRecurring ⟨24301, 10, 660⟩ (applyAndSortRecurring ⟨24301, 10, 660⟩
      ⟨[⟨9, ⟨24300, 15, 0⟩, "Pay", 30, none⟩], [⟨1, "Sub", -5, 3, 2, 0, none⟩],
        0⟩)).transactions.Perm
      (applyAndSortRecurring ⟨24301, 10, 660⟩
        ⟨[⟨9, ⟨24300, 15, 0⟩, "Pay", 30, none⟩], [⟨1, "Sub", -5, 3, 2, 0, none⟩],
          0⟩).transactions ∧
    (applyAndSortRecurring ⟨24301, 10, 660⟩ (applyAndSortRecurring ⟨24301, 10, 660⟩
      ⟨[⟨9, ⟨24300, 15, 0⟩, "Pay", 30, none⟩], [⟨1, "Sub", -5, 3, 2, 0, none⟩],
        0⟩)).transactions.length =
      (applyAndSortRecurring ⟨24301, 10, 660⟩
        ⟨[⟨9, ⟨24300, 15, 0⟩, "Pay", 30, none⟩], [⟨1, "Sub", -5, 3, 2, 0, none⟩],
          0⟩).transactions.length :=
  c1_materializer_idempotent_amended ⟨24301, 10, 660⟩
    ⟨[⟨9, ⟨24300, 15, 0⟩, "Pay", 30, none⟩], [⟨1, "Sub", -5, 3, 2, 0, none⟩], 0⟩
    (by decide)
    (by
      intro t ht
      simp only [List.mem_singleton] at ht
      rw [ht]
      exact ⟨by decide, by decide⟩)
    (by
      intro r hr
      simp only [List.mem_singleton] at hr
      rw [hr]
      refine ⟨by decide, ?_, ?_⟩
      · intro la0 h
        cases h
      · intro _
        decide)
    (by decide)
